import Mathlib

/-!
Verification of the directory mirroring engine of `src/util/file.go`
(`CopyFolderContentsWithFilter`, `CopyFolderContents`, the `fileManifest`
type with its `Clean`/`Create`/`AddFile`/`Close` methods, and the helpers
`GetPathRelativeTo`, `PathContainsHiddenFileOrFolder`,
`WriteFileWithSamePermissions`).

Paths are modelled as lists of components (`Path`).  The destination
filesystem is an association list from paths to nodes (`Fs`); a node is a
regular file with permission bits and contents, a directory with permission
bits, or a manifest record (the gob-encoded log the engine writes): a
manifest node carries the decodable sequence of recorded paths together with
a `corrupt` flag standing for trailing bytes that fail to decode.

The source tree is an inductive `FSTree`; a symbolic link carries its
resolved target (cyclic link chains, which make the Go code diverge, are not
representable).  The recursive copier is `copyFolder`, written with explicit
fuel so that it is structurally recursive and kernel-evaluable; a run that
returns `none` as its error component is a successful run, and fuel
exhaustion is an error, so success facts are independent of the fuel chosen.
The interpreter also emits a trace of events (filter applications, manifest
creations and closings, file copies) used to state the lifecycle claims.
-/

namespace Mirror

abbrev Path := List String

/-- A node of the destination filesystem: a regular file (permission bits,
contents), a directory (permission bits), or a persisted manifest record
(permission bits, decodable recorded paths, and a flag for undecodable
trailing bytes). -/
inductive DNode where
  | dfile (perm : Nat) (content : String)
  | ddir (perm : Nat)
  | dmanifest (perm : Nat) (paths : List Path) (corrupt : Bool)
deriving DecidableEq, Repr

/-- The destination filesystem: an association list from absolute paths to
nodes.  Lookup takes the first matching key. -/
abbrev Fs := List (Path × DNode)

/-- `pfx d q` is true when `d` is a (not necessarily proper) prefix of `q`. -/
def pfx : Path → Path → Bool
  | [], _ => true
  | _ :: _, [] => false
  | a :: as, b :: bs => if a = b then pfx as bs else false

/-- First-match lookup in the association list. -/
def lookupFs : Fs → Path → Option DNode
  | [], _ => none
  | (k, v) :: rest, p => if k = p then some v else lookupFs rest p

/-- Remove the exact key `p`. -/
def eraseKey : Fs → Path → Fs
  | [], _ => []
  | (k, v) :: rest, p => if k = p then eraseKey rest p else (k, v) :: eraseKey rest p

/-- Overwrite (or create) the node at `p`. -/
def setFs (p : Path) (v : DNode) (fs : Fs) : Fs :=
  (p, v) :: eraseKey fs p

/-- `os.RemoveAll`: delete the entry at `p` and everything below it; removing
an absent path succeeds silently. -/
def removeAllFs (p : Path) (fs : Fs) : Fs :=
  fs.filter (fun e => !(pfx p e.1))

/-- Events observed during a run: each application of the filter (paired with
the source directory being listed), each successful `Create` of a manifest,
each `Close` of a manifest, and each file copy (`CopyFile`). -/
inductive Event where
  | filterCall (dir : Path) (arg : String)
  | createdEv (dir : Path)
  | closedEv (dir : Path)
  | copiedEv (dest : Path)
deriving DecidableEq, Repr

/-- Errors surfaced by a run.  `outOfFuel` is the artificial error returned
when the structural fuel is exhausted; it never occurs on runs given enough
fuel, and successful runs are fuel-independent. -/
inductive Err where
  | ioError (path : Path)
  | decodeError (path : Path)
  | outOfFuel
deriving DecidableEq, Repr

/-- Interpreter state: the destination filesystem plus the event trace. -/
structure St where
  fs : Fs
  events : List Event
deriving DecidableEq, Repr

/-! ### Path helpers (`GetPathRelativeTo`, `filepath.SplitList`-style) -/

/-- Strip the longest common leading run of two component lists
(the core of `filepath.Rel`). -/
def stripCommon : Path → Path → Path × Path
  | a :: as, b :: bs => if a = b then stripCommon as bs else (a :: as, b :: bs)
  | as, bs => (as, bs)

/-- Join components with forward slashes (`filepath.ToSlash` form). -/
def joinSlash (l : List String) : String :=
  match l with
  | [] => ""
  | x :: xs => xs.foldl (fun acc c => acc ++ "/" ++ c) x

/-- `GetPathRelativeTo path basePath` of `src/util/file.go:96`: the relative
path from `basePath` to `path`, slash-separated.  On component lists this is
`filepath.Rel`: strip the common prefix, then one `..` per remaining base
component followed by the remaining target components. -/
def GetPathRelativeTo (path basePath : Path) : String :=
  let (brest, prest) := stripCommon basePath path
  let comps := brest.map (fun _ => "..") ++ prest
  match comps with
  | [] => "."
  | l => joinSlash l

/-- Character-level worker for `splitSlash`: split a character list at the
separator `/`, accumulating the current component in reverse. -/
def splitSlashAux : List Char → List Char → List String
  | [], acc => [String.mk acc.reverse]
  | c :: cs, acc =>
    if c = '/' then String.mk acc.reverse :: splitSlashAux cs []
    else splitSlashAux cs (c :: acc)

/-- Split a slash-separated relative path back into components
(`filepath.Join` consuming a relative path, `strings.Split(path, "/")`). -/
def splitSlash (s : String) : List String :=
  splitSlashAux s.data []

/-- `strings.HasPrefix(part, ".")`: the component starts with a dot. -/
def startsWithDot (s : String) : Bool :=
  match s.data with
  | [] => false
  | c :: _ => c == '.'

/-! ### The source tree -/

/-- A source filesystem entry.  A symbolic link records its own mode bits
(what `os.Lstat` reports) and its fully resolved target (what `os.Stat`,
`ioutil.ReadFile` and directory listing see). -/
inductive FSTree where
  | file (perm : Nat) (content : String)
  | dir (perm : Nat) (children : List (String × FSTree))
  | symlink (perm : Nat) (target : FSTree)

/-- Follow symbolic links (`os.Stat` view). -/
def resolve : FSTree → FSTree
  | .symlink _ t => resolve t
  | t => t

/-- `os.Lstat(...).Mode()` permission bits: the entry's own bits, without
following links. -/
def lstatMode : FSTree → Nat
  | .file p _ => p
  | .dir p _ => p
  | .symlink p _ => p

/-- `IsDir` of `src/util/file.go:84`: `os.Stat` follows links, so a symlink
to a directory counts as a directory. -/
def isDirT (t : FSTree) : Bool :=
  match resolve t with
  | .dir _ _ => true
  | _ => false

/-- Immediate children as seen by `filepath.Glob(source + "/*")`: listing
follows a symlink to a directory; listing a non-directory yields nothing
(`Glob` returns no matches and no error). -/
def listChildren (t : FSTree) : List (String × FSTree) :=
  match resolve t with
  | .dir _ cs => cs
  | _ => []

/-- Contents read by `ioutil.ReadFile` (follows links). -/
def fileContent : FSTree → String
  | .file _ c => c
  | _ => ""

/-- Permission bits reported by `os.Stat` on a file (follows links). -/
def filePerm : FSTree → Nat
  | .file p _ => p
  | _ => 0

/-! ### The manifest operations (`fileManifest`, `src/util/file.go:259`) -/

/-- `fileManifest.Clean` (`src/util/file.go:266`): if no record exists at
`mpath`, succeed without touching anything.  Otherwise decode the recorded
paths one at a time and `os.RemoveAll` each (absent targets are fine); a
decode failure (modelled by the `corrupt` flag, or by a non-manifest,
non-empty file at `mpath`) aborts with the partial removals applied; on full
success the record itself is removed.  An empty file decodes as an
immediate clean end of record.  Opening a directory for gob decoding
fails. -/
def cleanManifest (mpath : Path) (fs : Fs) : Fs × Option Err :=
  match lookupFs fs mpath with
  | none => (fs, none)
  | some (.dmanifest _ paths corrupt) =>
    let fs1 := paths.foldl (fun acc p => removeAllFs p acc) fs
    if corrupt then (fs1, some (.decodeError mpath))
    else (removeAllFs mpath fs1, none)
  | some (.dfile _ c) =>
    if c = "" then (removeAllFs mpath fs, none)
    else (fs, some (.decodeError mpath))
  | some (.ddir _) => (fs, some (.ioError mpath))

/-- `fileManifest.Create` (`src/util/file.go:303`): open/truncate the record
for writing with mode `0644`; an existing regular file is truncated keeping
its permission bits; opening a directory for writing fails.  Creating a
fresh record requires the record's parent — the destination directory — to
exist as a directory: `os.OpenFile` with `O_CREATE` fails with `ENOENT` when
the parent is missing and `ENOTDIR` when it is not a directory. -/
def createManifest (mpath : Path) (fs : Fs) : Fs × Option Err :=
  match lookupFs fs mpath with
  | some (.ddir _) => (fs, some (.ioError mpath))
  | some (.dfile p _) => (setFs mpath (.dmanifest p [] false) fs, none)
  | some (.dmanifest p _ _) => (setFs mpath (.dmanifest p [] false) fs, none)
  | none =>
    match lookupFs fs mpath.dropLast with
    | some (.ddir _) => (setFs mpath (.dmanifest 0o644 [] false) fs, none)
    | _ => (fs, some (.ioError mpath))

/-- `fileManifest.AddFile` (`src/util/file.go:313`): append one path to the
record via the open encoder.  If the node at the manifest's path is no
longer the record written through this handle (it was clobbered by a copy,
which only happens when a source entry shares the manifest's name), the
bytes interleave and the record is no longer decodable. -/
def addFileManifest (mpath : Path) (dest : Path) (fs : Fs) : Fs :=
  match lookupFs fs mpath with
  | some (.dmanifest p l c) => setFs mpath (.dmanifest p (l ++ [dest]) c) fs
  | some (.dfile p _) => setFs mpath (.dmanifest p [] true) fs
  | some (.ddir p) => setFs mpath (.dmanifest p [] true) fs
  | none => setFs mpath (.dmanifest 0o644 [] true) fs

/-! ### `os.MkdirAll` and `ioutil.WriteFile` -/

/-- Walk the components of the target, creating each missing ancestor as a
directory with the given permission bits; an existing directory is left
untouched, and an existing non-directory is an error. -/
def mkdirAllAux (perm : Nat) : Path → List String → Fs → Fs × Option Err
  | _, [], fs => (fs, none)
  | built, x :: xs, fs =>
    match lookupFs fs (built ++ [x]) with
    | some (.ddir _) => mkdirAllAux perm (built ++ [x]) xs fs
    | some _ => (fs, some (.ioError (built ++ [x])))
    | none => mkdirAllAux perm (built ++ [x]) xs (setFs (built ++ [x]) (.ddir perm) fs)

/-- `os.MkdirAll(p, perm)`. -/
def mkdirAll (p : Path) (perm : Nat) (fs : Fs) : Fs × Option Err :=
  mkdirAllAux perm [] p fs

/-- `ioutil.WriteFile(p, contents, perm)` as used by
`WriteFileWithSamePermissions` (`src/util/file.go:229`): truncate-and-write;
an existing regular file keeps its old permission bits (`O_CREATE` applies
`perm` only to newly created files); writing over a directory fails. -/
def writeFileFs (p : Path) (content : String) (perm : Nat) (fs : Fs) : Fs × Option Err :=
  match lookupFs fs p with
  | some (.ddir _) => (fs, some (.ioError p))
  | some (.dfile oldPerm _) => (setFs p (.dfile oldPerm content) fs, none)
  | some (.dmanifest oldPerm _ _) => (setFs p (.dfile oldPerm content) fs, none)
  | none => (setFs p (.dfile perm content) fs, none)

/-! ### The recursive copier (`CopyFolderContentsWithFilter`) -/

section Copier

variable (mf : String) (φ : String → Bool)

/-- The per-child loop of `CopyFolderContentsWithFilter`
(`src/util/file.go:159-196`), abstracted over the recursive call `rec`.
For each child: compute its path relative to the immediate source directory,
apply the filter; on a directory child, `os.Lstat` the child, `os.MkdirAll`
the destination with that mode and recurse; on a file child, `os.MkdirAll`
the destination's parent with mode `0700`, copy contents and permission bits
(`CopyFile`, following links), and append the destination to the open
manifest. -/
def processChildren (rec : FSTree → Path → Path → St → St × Option Err) :
    List (String × FSTree) → Path → Path → St → St × Option Err
  | [], _, _, st => (st, none)
  | (n, tc) :: rest, sp, dp, st =>
    let rel := GetPathRelativeTo (sp ++ [n]) sp
    let st1 : St := ⟨st.fs, st.events ++ [.filterCall sp rel]⟩
    if φ rel then
      let dest := dp ++ splitSlash rel
      if isDirT tc then
        match mkdirAll dest (lstatMode tc) st1.fs with
        | (fs2, some e) => (⟨fs2, st1.events⟩, some e)
        | (fs2, none) =>
          match rec tc (sp ++ [n]) dest ⟨fs2, st1.events⟩ with
          | (st3, some e) => (st3, some e)
          | (st3, none) => processChildren rec rest sp dp st3
      else
        match mkdirAll dest.dropLast 0o700 st1.fs with
        | (fs2, some e) => (⟨fs2, st1.events⟩, some e)
        | (fs2, none) =>
          match writeFileFs dest (fileContent (resolve tc)) (filePerm (resolve tc)) fs2 with
          | (fs3, some e) => (⟨fs3, st1.events⟩, some e)
          | (fs3, none) =>
            let st3 : St := ⟨addFileManifest (dp ++ [mf]) dest fs3,
                             st1.events ++ [.copiedEv dest]⟩
            processChildren rec rest sp dp st3
    else
      processChildren rec rest sp dp st1

/-- `CopyFolderContentsWithFilter(source, destination, manifestFile, filter)`
(`src/util/file.go:142`): construct the manifest at
`destination/manifestFile`, `Clean()` it, `Create()` it, process each
immediate child of `source`, and `Close()` the manifest after the loop.
Any error returns immediately (without closing).  `fuel` bounds the
recursion depth structurally; `fuel = 0` is an error, so a successful run
never hit the bound. -/
def copyFolder : Nat → FSTree → Path → Path → St → St × Option Err
  | 0, _, _, _, st => (st, some .outOfFuel)
  | Nat.succ fuel, t, sp, dp, st =>
    let mpath := dp ++ [mf]
    match cleanManifest mpath st.fs with
    | (fs1, some e) => (⟨fs1, st.events⟩, some e)
    | (fs1, none) =>
      match createManifest mpath fs1 with
      | (fs2, some e) => (⟨fs2, st.events⟩, some e)
      | (fs2, none) =>
        let st2 : St := ⟨fs2, st.events ++ [.createdEv dp]⟩
        match processChildren mf φ
            (fun tc sp2 dp2 st2 => copyFolder fuel tc sp2 dp2 st2)
            (listChildren t) sp dp st2 with
        | (st3, some e) => (st3, some e)
        | (st3, none) => (⟨st3.fs, st3.events ++ [.closedEv dp]⟩, none)

end Copier

/-- `PathContainsHiddenFileOrFolder` (`src/util/file.go:208`): some
slash-separated component starts with `.` and is neither `.` nor `..`. -/
def PathContainsHiddenFileOrFolder (path : String) : Bool :=
  (splitSlash path).any (fun part =>
    startsWithDot part && !(part = ".") && !(part = ".."))

/-- The default filter of `CopyFolderContents` (`src/util/file.go:134`). -/
def defaultFilter (path : String) : Bool :=
  !PathContainsHiddenFileOrFolder path

/-- `CopyFolderContents` (`src/util/file.go:134`): the copier with the
default hidden-file filter. -/
def CopyFolderContents (fuel : Nat) (mfName : String) (t : FSTree)
    (sp dp : Path) (st : St) : St × Option Err :=
  copyFolder mfName defaultFilter fuel t sp dp st

/-! ### Basic lemmas about paths and the filesystem operations -/

theorem pfx_refl (p : Path) : pfx p p = true := by
  induction p with
  | nil => rfl
  | cons a as ih => simp [pfx, ih]

theorem pfx_append (d r : Path) : pfx d (d ++ r) = true := by
  induction d with
  | nil => rfl
  | cons a as ih => simp [pfx, ih]

theorem pfx_append_same (d l1 l2 : Path) : pfx (d ++ l1) (d ++ l2) = pfx l1 l2 := by
  induction d with
  | nil => rfl
  | cons a as ih => simp [pfx, ih]

theorem pfx_exists {d q : Path} (h : pfx d q = true) : ∃ r, q = d ++ r := by
  induction d generalizing q with
  | nil => exact ⟨q, rfl⟩
  | cons a as ih =>
    cases q with
    | nil => simp [pfx] at h
    | cons b bs =>
      by_cases hab : a = b
      · subst hab
        simp [pfx] at h
        obtain ⟨r, hr⟩ := ih h
        exact ⟨r, by simp [hr]⟩
      · simp [pfx, hab] at h

theorem pfx_length {d q : Path} (h : pfx d q = true) : d.length ≤ q.length := by
  obtain ⟨r, rfl⟩ := pfx_exists h
  simp

theorem pfx_trans {a b c : Path} (h1 : pfx a b = true) (h2 : pfx b c = true) :
    pfx a c = true := by
  obtain ⟨r1, rfl⟩ := pfx_exists h1
  obtain ⟨r2, rfl⟩ := pfx_exists h2
  rw [List.append_assoc]
  exact pfx_append _ _

theorem pfx_snoc_false (d : Path) (n : String) : pfx (d ++ [n]) d = false := by
  by_contra h
  have := pfx_length (by simpa using h)
  simp at this

theorem pfx_cons_single (a b : String) (r : Path) :
    pfx [a] (b :: r) = true ↔ a = b := by
  by_cases hab : a = b <;> simp [pfx, hab]

/-- `pfx (d ++ [a]) (d ++ b :: r)` holds iff the first components agree. -/
theorem pfx_snoc_cons (d : Path) (a b : String) (r : Path) :
    pfx (d ++ [a]) (d ++ b :: r) = true ↔ a = b := by
  rw [pfx_append_same d [a] (b :: r)]
  exact pfx_cons_single a b r

theorem strictUnder_iff (dp q : Path) :
    (pfx dp q = true ∧ q ≠ dp) ↔ ∃ n rest, q = dp ++ n :: rest := by
  constructor
  · rintro ⟨h1, h2⟩
    obtain ⟨r, rfl⟩ := pfx_exists h1
    cases r with
    | nil => simp at h2
    | cons n rest => exact ⟨n, rest, rfl⟩
  · rintro ⟨n, rest, rfl⟩
    refine ⟨pfx_append _ _, ?_⟩
    intro h
    have := congrArg List.length h
    simp at this

theorem lookupFs_mem {fs : Fs} {q : Path} {v : DNode} (h : lookupFs fs q = some v) :
    (q, v) ∈ fs := by
  induction fs with
  | nil => simp [lookupFs] at h
  | cons e rest ih =>
    obtain ⟨k, w⟩ := e
    by_cases hk : k = q
    · subst hk
      simp [lookupFs] at h
      simp [h]
    · simp [lookupFs, hk] at h
      exact List.mem_cons_of_mem _ (ih h)

theorem lookup_eraseKey (fs : Fs) (p q : Path) :
    lookupFs (eraseKey fs p) q = if q = p then none else lookupFs fs q := by
  induction fs with
  | nil => simp [eraseKey, lookupFs]
  | cons e rest ih =>
    obtain ⟨k, v⟩ := e
    by_cases hk : k = p
    · subst hk
      by_cases hq : q = k
      · subst hq
        simp [eraseKey, lookupFs, ih]
      · simp [eraseKey, lookupFs, ih, hq, Ne.symm hq]
    · by_cases hq : k = q
      · subst hq
        simp [eraseKey, lookupFs, hk, lookupFs, fun h => hk (Eq.symm h)]
      · simp [eraseKey, lookupFs, hk, hq, ih]

theorem lookup_setFs (p : Path) (v : DNode) (fs : Fs) (q : Path) :
    lookupFs (setFs p v fs) q = if q = p then some v else lookupFs fs q := by
  unfold setFs
  by_cases hq : q = p
  · subst hq
    simp [lookupFs]
  · simp [lookupFs, Ne.symm hq, hq, lookup_eraseKey]

theorem lookup_removeAll (p : Path) (fs : Fs) (q : Path) :
    lookupFs (removeAllFs p fs) q = if pfx p q then none else lookupFs fs q := by
  induction fs with
  | nil => simp [removeAllFs, lookupFs]
  | cons e rest ih =>
    obtain ⟨k, v⟩ := e
    unfold removeAllFs at *
    rw [List.filter_cons]
    by_cases hpk : pfx p k
    · by_cases hq : k = q
      · subst hq
        simp [hpk, lookupFs, ih]
      · simp [hpk, lookupFs, hq, ih]
    · by_cases hq : k = q
      · subst hq
        simp [hpk, lookupFs, ih]
      · simp [hpk, lookupFs, hq, ih]

/-- Removing each path in a list, left to right. -/
def removeList (L : List Path) (fs : Fs) : Fs :=
  L.foldl (fun acc p => removeAllFs p acc) fs

theorem lookup_removeList (L : List Path) (fs : Fs) (q : Path) :
    lookupFs (removeList L fs) q =
      if L.any (fun p => pfx p q) then none else lookupFs fs q := by
  induction L generalizing fs with
  | nil => simp [removeList]
  | cons p ps ih =>
    unfold removeList at *
    simp only [List.foldl_cons, List.any_cons]
    rw [ih]
    by_cases hp : pfx p q
    · simp [hp, lookup_removeAll]
    · simp [hp, lookup_removeAll]

/-! ### Relative-path computation lemmas -/

theorem stripCommon_append (d r : Path) : stripCommon d (d ++ r) = ([], r) := by
  induction d with
  | nil =>
    cases r with
    | nil => rfl
    | cons a as => rfl
  | cons a as ih => simp [stripCommon, ih]

theorem joinSlash_single (n : String) : joinSlash [n] = n := rfl

/-- The relative path the copier hands to the filter: a child of the listed
directory is addressed by its bare name. -/
theorem getPathRelativeTo_child (sp : Path) (n : String) :
    GetPathRelativeTo (sp ++ [n]) sp = n := by
  unfold GetPathRelativeTo
  rw [stripCommon_append]
  rfl

/-! ### Well-formed source trees -/

/-- A well-formed entry name: a single path component (so `filepath.Join`
keeps it intact), not one of the special components `.` and `..`, not empty,
and distinct from the manifest file name (the engine's bookkeeping file is
not ordinary content). -/
def wfNameB (mf n : String) : Bool :=
  decide (splitSlash n = [n] ∧ n ≠ "." ∧ n ≠ ".." ∧ n ≠ "" ∧ n ≠ mf)

/-- Well-formed source tree: every directory lists distinct, well-formed
child names. -/
inductive WfTree (mf : String) : FSTree → Prop where
  | file : ∀ p c, WfTree mf (.file p c)
  | symlink : ∀ p t, WfTree mf t → WfTree mf (.symlink p t)
  | dir : ∀ p cs, (cs.map Prod.fst).Nodup →
      (∀ nc ∈ cs, wfNameB mf nc.1 = true) →
      (∀ nc ∈ cs, WfTree mf nc.2) →
      WfTree mf (.dir p cs)

theorem WfTree.resolve_wf {mf : String} {t : FSTree} (h : WfTree mf t) :
    WfTree mf (resolve t) := by
  induction h with
  | file p c => exact .file p c
  | symlink p t _ ih => simpa [resolve] using ih
  | dir p cs h1 h2 h3 _ => exact .dir p cs h1 h2 h3

theorem WfTree.children_nodup {mf : String} {t : FSTree} (h : WfTree mf t) :
    ((listChildren t).map Prod.fst).Nodup := by
  have h2 := h.resolve_wf
  unfold listChildren
  cases hres : resolve t with
  | file p c => simp
  | symlink p t2 => simp
  | dir p cs =>
    rw [hres] at h2
    cases h2 with
    | dir _ _ h1 _ _ => simpa using h1

theorem WfTree.children_wfName {mf : String} {t : FSTree} (h : WfTree mf t) :
    ∀ nc ∈ listChildren t, wfNameB mf nc.1 = true := by
  have h2 := h.resolve_wf
  unfold listChildren
  cases hres : resolve t with
  | file p c => simp
  | symlink p t2 => simp
  | dir p cs =>
    rw [hres] at h2
    cases h2 with
    | dir _ _ _ hn _ => simpa using hn

theorem WfTree.children_wf {mf : String} {t : FSTree} (h : WfTree mf t) :
    ∀ nc ∈ listChildren t, WfTree mf nc.2 := by
  have h2 := h.resolve_wf
  unfold listChildren
  cases hres : resolve t with
  | file p c => simp
  | symlink p t2 => simp
  | dir p cs =>
    rw [hres] at h2
    cases h2 with
    | dir _ _ _ _ h3 => simpa using h3

theorem wfNameB_splitSlash {mf n : String} (h : wfNameB mf n = true) :
    splitSlash n = [n] :=
  (of_decide_eq_true h).1

theorem wfNameB_ne_mf {mf n : String} (h : wfNameB mf n = true) : n ≠ mf :=
  (of_decide_eq_true h).2.2.2.2

/-- Executable well-formedness check, usable by `decide` on concrete trees. -/
def wfTreeF (mf : String) : Nat → FSTree → Bool
  | 0, _ => false
  | Nat.succ fuel, t =>
    match t with
    | .file _ _ => true
    | .symlink _ tgt => wfTreeF mf fuel tgt
    | .dir _ cs =>
      decide ((cs.map Prod.fst).Nodup) &&
      cs.all (fun nc => wfNameB mf nc.1 && wfTreeF mf fuel nc.2)

theorem wfTreeF_sound {mf : String} {fuel : Nat} {t : FSTree}
    (h : wfTreeF mf fuel t = true) : WfTree mf t := by
  induction fuel generalizing t with
  | zero => simp [wfTreeF] at h
  | succ fuel ih =>
    cases t with
    | file p c => exact .file p c
    | symlink p tgt => exact .symlink p tgt (ih (by simpa [wfTreeF] using h))
    | dir p cs =>
      simp only [wfTreeF, Bool.and_eq_true, List.all_eq_true] at h
      refine .dir p cs (of_decide_eq_true h.1) ?_ ?_
      · intro nc hnc
        exact (h.2 nc hnc).1
      · intro nc hnc
        exact ih (h.2 nc hnc).2

/-! ### Sanity conditions on the initial destination filesystem -/

/-- Every manifest record in the filesystem records only entries directly
inside its own directory — the shape every record written by the engine has
(`AddFile` is only called with `filepath.Join(destination, name)` for the
manifest at `filepath.Join(destination, manifestFile)`). -/
def GoodL (look : Path → Option DNode) : Prop :=
  ∀ q pm L c, look q = some (.dmanifest pm L c) → ∀ x ∈ L, x ≠ [] ∧ x.dropLast = q.dropLast

/-- No entry lives strictly below a path whose non-final components mention
the manifest name: the manifest is a plain file, so nothing nests under
it. -/
def MfFreeL (mf : String) (look : Path → Option DNode) : Prop :=
  ∀ q, mf ∈ q.dropLast → look q = none

/-- The destination directory and all its ancestors exist as directories
(`Create` requires the destination to exist; `os.MkdirAll` then leaves the
ancestors untouched). -/
def DirsOkL (dp : Path) (look : Path → Option DNode) : Prop :=
  ∀ q, q ≠ [] → pfx q dp = true → ∃ p, look q = some (.ddir p)

def goodFsB (fs : Fs) : Bool :=
  fs.all (fun e => match e.2 with
    | .dmanifest _ L _ => L.all (fun x => !x.isEmpty && decide (x.dropLast = e.1.dropLast))
    | _ => true)

def mfFreeFsB (mf : String) (fs : Fs) : Bool :=
  fs.all (fun e => decide (mf ∉ e.1.dropLast))

def dirsOkB (dp : Path) (fs : Fs) : Bool :=
  dp.inits.all (fun q => q.isEmpty ||
    match lookupFs fs q with
    | some (.ddir _) => true
    | _ => false)

theorem goodFsB_sound {fs : Fs} (h : goodFsB fs = true) : GoodL (lookupFs fs) := by
  intro q pm L c hq x hx
  have hmem := lookupFs_mem hq
  unfold goodFsB at h
  rw [List.all_eq_true] at h
  have := h _ hmem
  simp only at this
  rw [List.all_eq_true] at this
  have hx2 := this x hx
  rw [Bool.and_eq_true] at hx2
  refine ⟨?_, of_decide_eq_true hx2.2⟩
  intro hnil
  subst hnil
  simp at hx2

theorem mfFreeFsB_sound {mf : String} {fs : Fs} (h : mfFreeFsB mf fs = true) :
    MfFreeL mf (lookupFs fs) := by
  intro q hq
  cases hl : lookupFs fs q with
  | none => rfl
  | some v =>
    have hmem := lookupFs_mem hl
    unfold mfFreeFsB at h
    rw [List.all_eq_true] at h
    exact absurd hq (of_decide_eq_true (h _ hmem))

theorem pfx_iff_isPrefix (d q : Path) : pfx d q = true ↔ d <+: q := by
  constructor
  · intro h
    obtain ⟨r, rfl⟩ := pfx_exists h
    exact ⟨r, rfl⟩
  · rintro ⟨r, rfl⟩
    exact pfx_append d r

theorem dirsOkB_sound {dp : Path} {fs : Fs} (h : dirsOkB dp fs = true) :
    DirsOkL dp (lookupFs fs) := by
  intro q hne hq
  unfold dirsOkB at h
  rw [List.all_eq_true] at h
  have hmem : q ∈ dp.inits := by
    rw [List.mem_inits]
    exact (pfx_iff_isPrefix q dp).mp hq
  have := h _ hmem
  rw [Bool.or_eq_true] at this
  rcases this with h1 | h1
  · cases q with
    | nil => exact absurd rfl hne
    | cons a as => simp at h1
  · cases hl : lookupFs fs q with
    | none => rw [hl] at h1; simp at h1
    | some v =>
      cases v with
      | dfile p c => rw [hl] at h1; simp at h1
      | ddir p => exact ⟨p, rfl⟩
      | dmanifest p L c => rw [hl] at h1; simp at h1

/-! ### Spec-side views of a run -/

/-- Names of the accepted file children of a child list, in listing order. -/
def acceptedFileNames (φ : String → Bool) (cs : List (String × FSTree)) : List String :=
  (cs.filter (fun nc => φ nc.1 && !isDirT nc.2)).map Prod.fst

/-- Names of the accepted file children of a directory. -/
def fileChildNames (φ : String → Bool) (t : FSTree) : List String :=
  acceptedFileNames φ (listChildren t)

/-- Names of the accepted directory children. -/
def acceptedDirNames (φ : String → Bool) (cs : List (String × FSTree)) : List String :=
  (cs.filter (fun nc => φ nc.1 && isDirT nc.2)).map Prod.fst

def dirChildNames (φ : String → Bool) (t : FSTree) : List String :=
  acceptedDirNames φ (listChildren t)

/-- The child of given name, if any. -/
def childNamed (cs : List (String × FSTree)) (n : String) : Option FSTree :=
  (cs.find? (fun nc => decide (nc.1 = n))).map Prod.snd

/-- The subtree of `t` at a relative component path (following symlinks at
each listing step, as the copier does). -/
def subtreeAtD : FSTree → Path → Option FSTree
  | t, [] => some t
  | t, n :: r =>
    match childNamed (listChildren t) n with
    | some c => subtreeAtD c r
    | none => none

/-- The relative paths of the destination directories a run visits: the root
plus, recursively, all accepted directory children. -/
def visitedDirsF (φ : String → Bool) : Nat → FSTree → List Path
  | 0, _ => []
  | Nat.succ fuel, t =>
    [] :: (listChildren t).foldr
      (fun nc acc =>
        (if φ nc.1 && isDirT nc.2
         then (visitedDirsF φ fuel nc.2).map (fun r => nc.1 :: r)
         else []) ++ acc) []

/-- The events emitted while processing one child list, abstracted over the
events of recursive calls. -/
def loopEvents (φ : String → Bool)
    (recEv : FSTree → Path → Path → List Event) :
    List (String × FSTree) → Path → Path → List Event
  | [], _, _ => []
  | (n, tc) :: rest, sp, dp =>
    Event.filterCall sp n ::
    ((if φ n then
        (if isDirT tc then recEv tc (sp ++ [n]) (dp ++ [n])
         else [Event.copiedEv (dp ++ [n])])
      else []) ++ loopEvents φ recEv rest sp dp)

/-- The full event trace of a successful run on a well-formed tree. -/
def mirrorEventsF (φ : String → Bool) : Nat → FSTree → Path → Path → List Event
  | 0, _, _, _ => []
  | Nat.succ fuel, t, sp, dp =>
    Event.createdEv dp ::
    (loopEvents φ (fun tc sp2 dp2 => mirrorEventsF φ fuel tc sp2 dp2)
        (listChildren t) sp dp
     ++ [Event.closedEv dp])

/-! ### Pointwise characterisation of a successful run -/

/-- The recorded paths of the manifest at `mpath`, an empty list if no
decodable record is there. -/
def recListO (look : Path → Option DNode) (mpath : Path) : List Path :=
  match look mpath with
  | some (.dmanifest _ L _) => L
  | _ => []

/-- The state of the destination region after `Clean()` and `Create()` at
one directory level: a fresh empty manifest record at `dp ++ [mf]`, nothing
below the record's path, everything recorded by the previous record removed
(with everything below it), the rest untouched. -/
def afterCC (mf : String) (look : Path → Option DNode) (dp : Path) :
    Path → Option DNode :=
  fun q =>
    if q = dp ++ [mf] then some (.dmanifest 0o644 [] false)
    else if pfx (dp ++ [mf]) q then none
    else if (recListO look (dp ++ [mf])).any (fun p => pfx p q) then none
    else look q

/-- Permission bits of a file written by `ioutil.WriteFile`: a target that
survived cleanup keeps its old bits, a fresh target gets the source's. -/
def permFrom : Option DNode → Nat → Nat
  | none, sp => sp
  | some (.dfile p _), _ => p
  | some (.dmanifest p _ _), _ => p
  | some (.ddir _), sp => sp

/-- Permission bits of a directory ensured by `os.MkdirAll`: an existing
directory keeps its bits, a fresh one gets the requested mode. -/
def dirPermFrom : Option DNode → Nat → Nat
  | some (.ddir p), _ => p
  | _, lp => lp

/-- The lookup function a recursive call starts from: the parent's
post-clean state with the child's destination directory ensured. -/
def childOldL (mf : String) (old : Path → Option DNode) (dp : Path)
    (n : String) (m : Nat) : Path → Option DNode :=
  fun q =>
    if q = dp ++ [n]
    then some (.ddir (dirPermFrom (afterCC mf old dp (dp ++ [n])) m))
    else afterCC mf old dp q

/-- Pointwise description of the destination region strictly below `dp`
after a successful run of the copier on tree `t`, in terms of the lookup
function `old` before the run: the manifest lists exactly the accepted file
children; accepted files are written (source contents, source bits when the
target did not survive cleanup); accepted directories are ensured and
described recursively; everything else strictly below `dp` is exactly what
`Clean()` left of `old`. -/
def InnerChar (mf : String) (φ : String → Bool) :
    Nat → FSTree → Path → (Path → Option DNode) → (Path → Option DNode) → Prop
  | 0, _, _, _, _ => False
  | Nat.succ fuel, t, dp, old, new =>
    (new (dp ++ [mf]) =
      some (.dmanifest 0o644 ((fileChildNames φ t).map (fun n => dp ++ [n])) false)) ∧
    (∀ n rest, n ∉ dirChildNames φ t →
      (rest = [] → n ≠ mf ∧ n ∉ fileChildNames φ t) →
      new (dp ++ n :: rest) = afterCC mf old dp (dp ++ n :: rest)) ∧
    (∀ n tc, (n, tc) ∈ listChildren t → φ n = true → isDirT tc = false →
      new (dp ++ [n]) =
        some (.dfile (permFrom (afterCC mf old dp (dp ++ [n])) (filePerm (resolve tc)))
                     (fileContent (resolve tc)))) ∧
    (∀ n tc, (n, tc) ∈ listChildren t → φ n = true → isDirT tc = true →
      new (dp ++ [n]) =
        some (.ddir (dirPermFrom (afterCC mf old dp (dp ++ [n])) (lstatMode tc))) ∧
      InnerChar mf φ fuel tc (dp ++ [n]) (childOldL mf old dp n (lstatMode tc)) new)

/-! ### Derived path facts -/

theorem snoc_ne_self (dp : Path) (n : String) : dp ++ [n] ≠ dp := by
  intro h
  have := congrArg List.length h
  simp at this

theorem cons_append_ne_self (dp : Path) (n : String) (rest : Path) :
    dp ++ n :: rest ≠ dp := by
  intro h
  have := congrArg List.length h
  simp at this

theorem pfx_antisymm {a b : Path} (h1 : pfx a b = true) (h2 : pfx b a = true) :
    a = b := by
  obtain ⟨r, rfl⟩ := pfx_exists h1
  have := pfx_length h2
  simp at this
  simp [this]

theorem pfx_snoc_cases {q dp : Path} {n : String} (h : pfx q (dp ++ [n]) = true) :
    q = dp ++ [n] ∨ pfx q dp = true := by
  rw [pfx_iff_isPrefix] at h
  rcases Nat.lt_or_ge q.length (dp ++ [n]).length with hlen | hlen
  · right
    rw [pfx_iff_isPrefix]
    have hdp : dp <+: dp ++ [n] := ⟨[n], rfl⟩
    refine List.prefix_of_prefix_length_le h hdp ?_
    simp at hlen ⊢
    omega
  · left
    exact List.IsPrefix.eq_of_length_le h (by omega)

theorem dropLast_snoc (dp : Path) (n : String) : (dp ++ [n]).dropLast = dp := by
  simp

/-- Membership of the middle element: `mf ∈ (dp ++ [mf] ++ r).dropLast`
whenever `r ≠ []`. -/
theorem mf_mem_dropLast (dp : Path) (mf : String) (r : Path) (h : r ≠ []) :
    mf ∈ (dp ++ [mf] ++ r).dropLast := by
  rw [List.dropLast_append_of_ne_nil _ h]
  simp

/-! ### Characterisation of `Clean()` followed by `Create()` -/

theorem cleanCreate_char {mf : String} {dp : Path} {fs fs1 fs2 : Fs}
    (hmf : MfFreeL mf (lookupFs fs))
    (hclean : cleanManifest (dp ++ [mf]) fs = (fs1, none))
    (hcreate : createManifest (dp ++ [mf]) fs1 = (fs2, none)) :
    ∀ q, lookupFs fs2 q = afterCC mf (lookupFs fs) dp q := by
  intro q
  unfold cleanManifest at hclean
  unfold afterCC recListO
  cases hmp : lookupFs fs (dp ++ [mf]) with
  | none =>
    rw [hmp] at hclean
    obtain ⟨rfl, -⟩ : fs = fs1 ∧ True := by
      refine ⟨?_, trivial⟩
      exact congrArg Prod.fst hclean
    unfold createManifest at hcreate
    rw [hmp, dropLast_snoc] at hcreate
    cases hpar : lookupFs fs dp with
    | none =>
      rw [hpar] at hcreate
      simp at hcreate
    | some w =>
      cases w with
      | dfile p2 c2 =>
        rw [hpar] at hcreate
        simp at hcreate
      | dmanifest pm2 L2 c2 =>
        rw [hpar] at hcreate
        simp at hcreate
      | ddir pp =>
        rw [hpar] at hcreate
        have hfs2 : fs2 = setFs (dp ++ [mf]) (.dmanifest 0o644 [] false) fs :=
          (congrArg Prod.fst hcreate).symm
        subst hfs2
        rw [lookup_setFs]
        by_cases hq : q = dp ++ [mf]
        · simp [hq]
        · simp only [hq, if_false]
          by_cases hpq : pfx (dp ++ [mf]) q = true
          · obtain ⟨r, rfl⟩ := pfx_exists hpq
            have hr : r ≠ [] := by
              intro h
              subst h
              simp at hq
            simp only [if_pos hpq]
            exact hmf _ (mf_mem_dropLast dp mf r hr)
          · simp [hpq]
  | some v =>
    cases v with
    | ddir p =>
      rw [hmp] at hclean
      simp at hclean
    | dfile p c =>
      rw [hmp] at hclean
      by_cases hc : c = ""
      · subst hc
        simp only [if_pos rfl] at hclean
        have hfs1 : fs1 = removeAllFs (dp ++ [mf]) fs := (congrArg Prod.fst hclean).symm
        subst hfs1
        unfold createManifest at hcreate
        rw [lookup_removeAll] at hcreate
        simp only [pfx_refl, if_pos] at hcreate
        rw [dropLast_snoc] at hcreate
        cases hpar : lookupFs (removeAllFs (dp ++ [mf]) fs) dp with
        | none =>
          rw [hpar] at hcreate
          simp at hcreate
        | some w =>
          cases w with
          | dfile p2 c2 =>
            rw [hpar] at hcreate
            simp at hcreate
          | dmanifest pm2 L2 c2 =>
            rw [hpar] at hcreate
            simp at hcreate
          | ddir pp =>
            rw [hpar] at hcreate
            have hfs2 : fs2 = setFs (dp ++ [mf]) (.dmanifest 0o644 [] false)
                (removeAllFs (dp ++ [mf]) fs) := (congrArg Prod.fst hcreate).symm
            subst hfs2
            rw [lookup_setFs, lookup_removeAll]
            by_cases hq : q = dp ++ [mf]
            · simp [hq]
            · simp only [hq, if_false]
              by_cases hpq : pfx (dp ++ [mf]) q = true
              · simp [hpq]
              · simp [hpq]
      · simp [hc] at hclean
    | dmanifest pm L corrupt =>
      rw [hmp] at hclean
      cases corrupt with
      | true => simp at hclean
      | false =>
        simp only [if_neg (Bool.false_ne_true)] at hclean
        have hfs1 : fs1 = removeAllFs (dp ++ [mf]) (removeList L fs) := by
          have := congrArg Prod.fst hclean
          simpa [removeList] using this.symm
        subst hfs1
        unfold createManifest at hcreate
        rw [lookup_removeAll] at hcreate
        simp only [pfx_refl, if_pos] at hcreate
        rw [dropLast_snoc] at hcreate
        cases hpar : lookupFs (removeAllFs (dp ++ [mf]) (removeList L fs)) dp with
        | none =>
          rw [hpar] at hcreate
          simp at hcreate
        | some w =>
          cases w with
          | dfile p2 c2 =>
            rw [hpar] at hcreate
            simp at hcreate
          | dmanifest pm2 L2 c2 =>
            rw [hpar] at hcreate
            simp at hcreate
          | ddir pp =>
            rw [hpar] at hcreate
            have hfs2 : fs2 = setFs (dp ++ [mf]) (.dmanifest 0o644 [] false)
                (removeAllFs (dp ++ [mf]) (removeList L fs)) :=
              (congrArg Prod.fst hcreate).symm
            subst hfs2
            rw [lookup_setFs, lookup_removeAll, lookup_removeList]

/-! ### Characterisation of `os.MkdirAll` -/

theorem mkdirAllAux_walk (perm : Nat) :
    ∀ (d built rest : Path) (fs : Fs),
      (∀ q, q ≠ [] → pfx q d = true → ∃ p, lookupFs fs (built ++ q) = some (.ddir p)) →
      mkdirAllAux perm built (d ++ rest) fs = mkdirAllAux perm (built ++ d) rest fs := by
  intro d
  induction d with
  | nil => intro built rest fs _; simp
  | cons c cs ih =>
    intro built rest fs h
    obtain ⟨p, hp⟩ := h [c] (by simp) (by simp [pfx, pfx_refl])
    have step : mkdirAllAux perm built ((c :: cs) ++ rest) fs
        = mkdirAllAux perm (built ++ [c]) (cs ++ rest) fs := by
      simp only [List.cons_append, mkdirAllAux, hp]
      rfl
    rw [step, ih (built ++ [c]) rest fs ?hq]
    · simp
    case hq =>
      intro q hq hpq
      have h2 := h (c :: q) (by simp) (by simpa [pfx] using hpq)
      simpa using h2

theorem mkdirAll_noop {dp : Path} {m : Nat} {fs : Fs}
    (h : DirsOkL dp (lookupFs fs)) : mkdirAll dp m fs = (fs, none) := by
  unfold mkdirAll
  have w := mkdirAllAux_walk m dp [] [] fs
    (by intro q hq hpq; simpa using h q hq hpq)
  simp only [List.append_nil, List.nil_append] at w
  rw [w]
  rfl

theorem mkdirAll_snoc_char {dp : Path} {n : String} {m : Nat} {fs fs2 : Fs}
    (h : DirsOkL dp (lookupFs fs))
    (hrun : mkdirAll (dp ++ [n]) m fs = (fs2, none)) :
    ∀ q, lookupFs fs2 q =
      if q = dp ++ [n]
      then some (.ddir (dirPermFrom (lookupFs fs (dp ++ [n])) m))
      else lookupFs fs q := by
  unfold mkdirAll at hrun
  rw [show dp ++ [n] = dp ++ [n] from rfl] at hrun
  have w := mkdirAllAux_walk m dp [] [n] fs
    (by intro q hq hpq; simpa using h q hq hpq)
  simp only [List.nil_append] at w
  rw [w] at hrun
  cases hnode : lookupFs fs (dp ++ [n]) with
  | none =>
    simp only [mkdirAllAux, hnode] at hrun
    have hfs2 : fs2 = setFs (dp ++ [n]) (.ddir m) fs := (congrArg Prod.fst hrun).symm
    subst hfs2
    intro q
    rw [lookup_setFs]
    by_cases hq : q = dp ++ [n] <;> simp [hq, dirPermFrom]
  | some v =>
    cases v with
    | ddir p =>
      simp only [mkdirAllAux, hnode] at hrun
      have hfs2 : fs2 = fs := (congrArg Prod.fst hrun).symm
      subst hfs2
      intro q
      by_cases hq : q = dp ++ [n] <;> simp [hq, dirPermFrom, hnode]
    | dfile p c => simp [mkdirAllAux, hnode] at hrun
    | dmanifest pm L corrupt => simp [mkdirAllAux, hnode] at hrun

/-! ### Characterisation of `ioutil.WriteFile` -/

theorem writeFile_char {p : Path} {content : String} {perm : Nat} {fs fs2 : Fs}
    (hrun : writeFileFs p content perm fs = (fs2, none)) :
    ∀ q, lookupFs fs2 q =
      if q = p
      then some (.dfile (permFrom (lookupFs fs p) perm) content)
      else lookupFs fs q := by
  unfold writeFileFs at hrun
  cases hnode : lookupFs fs p with
  | none =>
    rw [hnode] at hrun
    have hfs2 : fs2 = setFs p (.dfile perm content) fs := (congrArg Prod.fst hrun).symm
    subst hfs2
    intro q
    rw [lookup_setFs]
    by_cases hq : q = p <;> simp [hq, permFrom]
  | some v =>
    cases v with
    | ddir pp => rw [hnode] at hrun; simp at hrun
    | dfile pp c =>
      rw [hnode] at hrun
      have hfs2 : fs2 = setFs p (.dfile pp content) fs := (congrArg Prod.fst hrun).symm
      subst hfs2
      intro q
      rw [lookup_setFs]
      by_cases hq : q = p <;> simp [hq, permFrom]
    | dmanifest pp L c =>
      rw [hnode] at hrun
      have hfs2 : fs2 = setFs p (.dfile pp content) fs := (congrArg Prod.fst hrun).symm
      subst hfs2
      intro q
      rw [lookup_setFs]
      by_cases hq : q = p <;> simp [hq, permFrom]

/-! ### Characterisation of `AddFile` on an intact record -/

theorem addFile_char {mpath dest : Path} {fs : Fs} {pm : Nat} {l : List Path}
    (h : lookupFs fs mpath = some (.dmanifest pm l false)) :
    ∀ q, lookupFs (addFileManifest mpath dest fs) q =
      if q = mpath then some (.dmanifest pm (l ++ [dest]) false) else lookupFs fs q := by
  unfold addFileManifest
  rw [h]
  intro q
  rw [lookup_setFs]

/-! ### Congruence for the characterisation predicate -/

theorem strictUnder_step {dp q : Path} {n : String}
    (h1 : pfx (dp ++ [n]) q = true) (h2 : q ≠ dp ++ [n]) :
    pfx dp q = true ∧ q ≠ dp := by
  obtain ⟨c, r, hq⟩ := (strictUnder_iff (dp ++ [n]) q).mp ⟨h1, h2⟩
  subst hq
  constructor
  · exact pfx_trans (pfx_append dp [n]) h1
  · rw [List.append_assoc]
    exact cons_append_ne_self dp n (c :: r)

theorem afterCC_congr {mf : String} {dp : Path} {old1 old2 : Path → Option DNode}
    (h : ∀ q, pfx dp q = true → q ≠ dp → old1 q = old2 q) :
    ∀ q, pfx dp q = true → q ≠ dp → afterCC mf old1 dp q = afterCC mf old2 dp q := by
  intro q hq hne
  unfold afterCC
  have hmp : old1 (dp ++ [mf]) = old2 (dp ++ [mf]) :=
    h _ (pfx_append _ _) (snoc_ne_self _ _)
  have hrl : recListO old1 (dp ++ [mf]) = recListO old2 (dp ++ [mf]) := by
    unfold recListO
    rw [hmp]
  rw [hrl, h q hq hne]

theorem InnerChar_congr (mf : String) (φ : String → Bool) :
    ∀ (fuel : Nat) (t : FSTree) (dp : Path) (old1 old2 new1 new2 : Path → Option DNode),
    (∀ q, pfx dp q = true → q ≠ dp → old1 q = old2 q) →
    (∀ q, pfx dp q = true → q ≠ dp → new1 q = new2 q) →
    InnerChar mf φ fuel t dp old1 new1 → InnerChar mf φ fuel t dp old2 new2 := by
  intro fuel
  induction fuel with
  | zero => intro t dp old1 old2 new1 new2 _ _ h; exact h
  | succ fuel ih =>
    intro t dp old1 old2 new1 new2 hold hnew h
    obtain ⟨hM, hU, hF, hD⟩ := h
    have hmpU : pfx dp (dp ++ [mf]) = true := pfx_append _ _
    have hmpN : dp ++ [mf] ≠ dp := snoc_ne_self _ _
    refine ⟨?_, ?_, ?_, ?_⟩
    · rw [← hnew _ hmpU hmpN]
      exact hM
    · intro n rest h1 h2
      have hu : pfx dp (dp ++ n :: rest) = true := pfx_append _ _
      have hn : dp ++ n :: rest ≠ dp := cons_append_ne_self _ _ _
      rw [← hnew _ hu hn, ← afterCC_congr hold _ hu hn]
      exact hU n rest h1 h2
    · intro n tc hm h1 h2
      have hu : pfx dp (dp ++ [n]) = true := pfx_append _ _
      have hn : dp ++ [n] ≠ dp := snoc_ne_self _ _
      rw [← hnew _ hu hn, ← afterCC_congr hold _ hu hn]
      exact hF n tc hm h1 h2
    · intro n tc hm h1 h2
      have hu : pfx dp (dp ++ [n]) = true := pfx_append _ _
      have hn : dp ++ [n] ≠ dp := snoc_ne_self _ _
      obtain ⟨hnode, hrec⟩ := hD n tc hm h1 h2
      refine ⟨?_, ?_⟩
      · rw [← hnew _ hu hn, ← afterCC_congr hold _ hu hn]
        exact hnode
      · refine ih tc (dp ++ [n]) _ _ _ _ ?_ ?_ hrec
        · intro q hq hqe
          obtain ⟨hq2, hqe2⟩ := strictUnder_step hq hqe
          unfold childOldL
          rw [if_neg hqe, if_neg hqe]
          exact afterCC_congr hold _ hq2 hqe2
        · intro q hq hqe
          obtain ⟨hq2, hqe2⟩ := strictUnder_step hq hqe
          exact hnew q hq2 hqe2

/-! ### Preservation of the sanity conditions -/

theorem GoodL_ext {look1 look2 : Path → Option DNode}
    (h : ∀ q, look2 q = look1 q) (hg : GoodL look1) : GoodL look2 := by
  intro q pm L c hq
  rw [h] at hq
  exact hg q pm L c hq

theorem MfFreeL_ext {mf : String} {look1 look2 : Path → Option DNode}
    (h : ∀ q, look2 q = look1 q) (hg : MfFreeL mf look1) : MfFreeL mf look2 := by
  intro q hq
  rw [h]
  exact hg q hq

theorem DirsOkL_ext {dp : Path} {look1 look2 : Path → Option DNode}
    (h : ∀ q, look2 q = look1 q) (hg : DirsOkL dp look1) : DirsOkL dp look2 := by
  intro q h1 h2
  rw [h]
  exact hg q h1 h2

theorem GoodL_ite {look : Path → Option DNode} {p : Path} {v : DNode}
    (hv : ∀ pm L c, v = .dmanifest pm L c → ∀ x ∈ L, x ≠ [] ∧ x.dropLast = p.dropLast)
    (hg : GoodL look) :
    GoodL (fun q => if q = p then some v else look q) := by
  intro q pm L c hq
  replace hq : (if q = p then some v else look q) = some (.dmanifest pm L c) := hq
  by_cases hqp : q = p
  · subst hqp
    rw [if_pos rfl] at hq
    exact hv pm L c (Option.some.inj hq)
  · rw [if_neg hqp] at hq
    exact hg q pm L c hq

theorem MfFreeL_ite {mf : String} {look : Path → Option DNode} {p : Path} {v : DNode}
    (hp : mf ∉ p.dropLast) (hg : MfFreeL mf look) :
    MfFreeL mf (fun q => if q = p then some v else look q) := by
  intro q hq
  show (if q = p then some v else look q) = none
  by_cases hqp : q = p
  · subst hqp
    exact absurd hq hp
  · rw [if_neg hqp]
    exact hg q hq

theorem GoodL_afterCC {mf : String} {dp : Path} {look : Path → Option DNode}
    (hg : GoodL look) : GoodL (afterCC mf look dp) := by
  intro q pm L c hq
  unfold afterCC at hq
  by_cases h1 : q = dp ++ [mf]
  · subst h1
    rw [if_pos rfl] at hq
    have h2 := Option.some.inj hq
    intro x hx
    rw [show L = [] from by cases h2; rfl] at hx
    simp at hx
  · rw [if_neg h1] at hq
    by_cases h2 : pfx (dp ++ [mf]) q = true
    · simp [h2] at hq
    · rw [if_neg h2] at hq
      by_cases h3 : (recListO look (dp ++ [mf])).any (fun p => pfx p q) = true
      · simp [h3] at hq
      · rw [if_neg h3] at hq
        exact hg q pm L c hq

theorem MfFreeL_afterCC {mf : String} {dp : Path} {look : Path → Option DNode}
    (hdp : mf ∉ dp) (hg : MfFreeL mf look) : MfFreeL mf (afterCC mf look dp) := by
  intro q hq
  unfold afterCC
  by_cases h1 : q = dp ++ [mf]
  · rw [h1, dropLast_snoc] at hq
    exact absurd hq hdp
  · rw [if_neg h1]
    by_cases h2 : pfx (dp ++ [mf]) q = true
    · simp [h2]
    · rw [if_neg h2]
      by_cases h3 : (recListO look (dp ++ [mf])).any (fun p => pfx p q) = true
      · simp [h3]
      · rw [if_neg h3]
        exact hg q hq

/-! ### More small path facts -/

theorem append_cancel_left_iff (dp l1 l2 : Path) : dp ++ l1 = dp ++ l2 ↔ l1 = l2 := by
  constructor
  · intro h
    induction dp with
    | nil => exact h
    | cons a as ih =>
      apply ih
      exact List.cons.inj h |>.2
  · intro h; rw [h]

theorem snoc_eq_iff {dp : Path} {a b : String} : dp ++ [a] = dp ++ [b] ↔ a = b := by
  rw [append_cancel_left_iff]
  simp

theorem cons_append_eq_snoc_iff {dp : Path} {n mf : String} {rest : Path} :
    dp ++ n :: rest = dp ++ [mf] ↔ n = mf ∧ rest = [] := by
  rw [append_cancel_left_iff]
  simp

theorem pfx_snoc_cons_false {dp : Path} {n2 n : String} (rest : Path) (h : n2 ≠ n) :
    pfx (dp ++ [n2]) (dp ++ n :: rest) = false := by
  by_cases hb : pfx (dp ++ [n2]) (dp ++ n :: rest) = true
  · exact absurd ((pfx_snoc_cons dp n2 n rest).mp hb) h
  · exact Bool.eq_false_iff.mpr hb

theorem pfx_snoc_of_short {q dp : Path} {n : String} (h : pfx q dp = true) :
    pfx (dp ++ [n]) q = false := by
  by_cases hb : pfx (dp ++ [n]) q = true
  · have h1 := pfx_length hb
    have h2 := pfx_length h
    simp at h1
    omega
  · exact Bool.eq_false_iff.mpr hb

theorem ne_snoc_of_short {q dp : Path} {n : String} (h : pfx q dp = true) :
    q ≠ dp ++ [n] := by
  intro he
  have h1 := pfx_length h
  rw [he] at h1
  simp at h1

theorem snoc_pfx_snoc_iff {dp : Path} {a b : String} :
    pfx (dp ++ [a]) (dp ++ [b]) = true ↔ a = b := by
  have : dp ++ [b] = dp ++ b :: [] := rfl
  rw [this]
  exact pfx_snoc_cons dp a b []

/-- Use the head element of a `Nodup` map of names. -/
theorem nodup_head_not_mem {n : String} {tc : FSTree} {rest : List (String × FSTree)}
    (h : (((n, tc) :: rest).map Prod.fst).Nodup) : ∀ nc ∈ rest, nc.1 ≠ n := by
  intro nc hnc he
  rw [List.map_cons, List.nodup_cons] at h
  refine h.1 ?_
  exact List.mem_map.mpr ⟨nc, hnc, he⟩

theorem DirsOkL_snoc {dp : Path} {n : String} {look : Path → Option DNode} {p : Nat}
    (h : DirsOkL dp look) (hn : look (dp ++ [n]) = some (.ddir p)) :
    DirsOkL (dp ++ [n]) look := by
  intro q hq hpq
  rcases pfx_snoc_cases hpq with rfl | h2
  · exact ⟨p, hn⟩
  · exact h q hq h2

/-! ### Step equations for the child loop -/

theorem processChildren_nil (mf : String) (φ : String → Bool)
    (rec : FSTree → Path → Path → St → St × Option Err) (sp dp : Path) (st : St) :
    processChildren mf φ rec [] sp dp st = (st, none) := rfl

theorem processChildren_step_reject (mf : String) (φ : String → Bool)
    (rec : FSTree → Path → Path → St → St × Option Err)
    (n : String) (tc : FSTree) (rest : List (String × FSTree)) (sp dp : Path) (st : St)
    (hφ : φ n = false) :
    processChildren mf φ rec ((n, tc) :: rest) sp dp st =
      processChildren mf φ rec rest sp dp ⟨st.fs, st.events ++ [.filterCall sp n]⟩ := by
  simp only [processChildren, getPathRelativeTo_child, hφ]
  rfl

theorem processChildren_step_dir (mf : String) (φ : String → Bool)
    (rec : FSTree → Path → Path → St → St × Option Err)
    (n : String) (tc : FSTree) (rest : List (String × FSTree)) (sp dp : Path) (st : St)
    (hwf : wfNameB mf n = true) (hφ : φ n = true) (hdir : isDirT tc = true) :
    processChildren mf φ rec ((n, tc) :: rest) sp dp st =
      match mkdirAll (dp ++ [n]) (lstatMode tc) st.fs with
      | (fs2, some e) => (⟨fs2, st.events ++ [.filterCall sp n]⟩, some e)
      | (fs2, none) =>
        match rec tc (sp ++ [n]) (dp ++ [n]) ⟨fs2, st.events ++ [.filterCall sp n]⟩ with
        | (st3, some e) => (st3, some e)
        | (st3, none) => processChildren mf φ rec rest sp dp st3 := by
  simp only [processChildren, getPathRelativeTo_child, hφ, hdir,
    wfNameB_splitSlash hwf, if_true]

theorem processChildren_step_file (mf : String) (φ : String → Bool)
    (rec : FSTree → Path → Path → St → St × Option Err)
    (n : String) (tc : FSTree) (rest : List (String × FSTree)) (sp dp : Path) (st : St)
    (hwf : wfNameB mf n = true) (hφ : φ n = true) (hdir : isDirT tc = false) :
    processChildren mf φ rec ((n, tc) :: rest) sp dp st =
      match mkdirAll dp 0o700 st.fs with
      | (fs2, some e) => (⟨fs2, st.events ++ [.filterCall sp n]⟩, some e)
      | (fs2, none) =>
        match writeFileFs (dp ++ [n]) (fileContent (resolve tc)) (filePerm (resolve tc)) fs2 with
        | (fs3, some e) => (⟨fs3, st.events ++ [.filterCall sp n]⟩, some e)
        | (fs3, none) =>
          processChildren mf φ rec rest sp dp
            ⟨addFileManifest (dp ++ [mf]) (dp ++ [n]) fs3,
             (st.events ++ [.filterCall sp n]) ++ [.copiedEv (dp ++ [n])]⟩ := by
  simp only [processChildren, getPathRelativeTo_child, hφ, hdir,
    wfNameB_splitSlash hwf, dropLast_snoc, if_true, Bool.false_eq_true, if_false]

/-! ### The child-loop characterisation -/

/-- Characterisation of one pass of the child loop, given the inductive
hypothesis `IH` describing recursive calls at the smaller fuel.  All
conclusions are relative to the state `st` at loop entry: the open manifest
record (holding `acc`) collects exactly the accepted file children; regions
of unprocessed names are untouched; accepted files and directories are
written as the code writes them. -/
theorem processChildren_char (mf : String) (φ : String → Bool) (fuel : Nat)
    (sp dp : Path) (hmfdp : mf ∉ dp)
    (IH : ∀ (t : FSTree) (sp2 dp2 : Path) (st st1 : St),
      WfTree mf t → GoodL (lookupFs st.fs) → MfFreeL mf (lookupFs st.fs) →
      DirsOkL dp2 (lookupFs st.fs) → mf ∉ dp2 →
      copyFolder mf φ fuel t sp2 dp2 st = (st1, none) →
      InnerChar mf φ fuel t dp2 (lookupFs st.fs) (lookupFs st1.fs) ∧
      (∀ q, (pfx dp2 q = true → q = dp2) → lookupFs st1.fs q = lookupFs st.fs q) ∧
      GoodL (lookupFs st1.fs) ∧ MfFreeL mf (lookupFs st1.fs) ∧
      st1.events = st.events ++ mirrorEventsF φ fuel t sp2 dp2) :
    ∀ (cs : List (String × FSTree)) (st st1 : St) (pm : Nat) (acc : List Path),
      (cs.map Prod.fst).Nodup →
      (∀ nc ∈ cs, wfNameB mf nc.1 = true) →
      (∀ nc ∈ cs, WfTree mf nc.2) →
      GoodL (lookupFs st.fs) → MfFreeL mf (lookupFs st.fs) →
      DirsOkL dp (lookupFs st.fs) →
      lookupFs st.fs (dp ++ [mf]) = some (.dmanifest pm acc false) →
      processChildren mf φ (fun tc sp2 dp2 st2 => copyFolder mf φ fuel tc sp2 dp2 st2)
        cs sp dp st = (st1, none) →
      (lookupFs st1.fs (dp ++ [mf]) =
        some (.dmanifest pm
          (acc ++ (acceptedFileNames φ cs).map (fun n => dp ++ [n])) false)) ∧
      (∀ q, q ≠ dp ++ [mf] → (∀ n ∈ cs.map Prod.fst, pfx (dp ++ [n]) q = false) →
        lookupFs st1.fs q = lookupFs st.fs q) ∧
      (∀ n tc, (n, tc) ∈ cs → φ n = false →
        ∀ q, pfx (dp ++ [n]) q = true → lookupFs st1.fs q = lookupFs st.fs q) ∧
      (∀ n tc, (n, tc) ∈ cs → φ n = true → isDirT tc = false →
        (lookupFs st1.fs (dp ++ [n]) =
          some (.dfile (permFrom (lookupFs st.fs (dp ++ [n])) (filePerm (resolve tc)))
            (fileContent (resolve tc)))) ∧
        (∀ rest2, rest2 ≠ [] →
          lookupFs st1.fs (dp ++ n :: rest2) = lookupFs st.fs (dp ++ n :: rest2))) ∧
      (∀ n tc, (n, tc) ∈ cs → φ n = true → isDirT tc = true →
        (lookupFs st1.fs (dp ++ [n]) =
          some (.ddir (dirPermFrom (lookupFs st.fs (dp ++ [n])) (lstatMode tc)))) ∧
        InnerChar mf φ fuel tc (dp ++ [n])
          (fun q => if q = dp ++ [n]
            then some (.ddir (dirPermFrom (lookupFs st.fs (dp ++ [n])) (lstatMode tc)))
            else lookupFs st.fs q)
          (lookupFs st1.fs)) ∧
      GoodL (lookupFs st1.fs) ∧ MfFreeL mf (lookupFs st1.fs) ∧
      DirsOkL dp (lookupFs st1.fs) ∧
      st1.events = st.events ++
        loopEvents φ (fun tc sp2 dp2 => mirrorEventsF φ fuel tc sp2 dp2) cs sp dp := by
  intro cs
  induction cs with
  | nil =>
    intro st st1 pm acc _ _ _ hGood hMf hDirs hman hrun
    rw [processChildren_nil] at hrun
    obtain ⟨rfl, -⟩ : st = st1 ∧ True := by
      refine ⟨?_, trivial⟩
      exact congrArg Prod.fst hrun
    refine ⟨by simpa [acceptedFileNames] using hman, ?_, ?_, ?_, ?_, hGood, hMf, hDirs, ?_⟩
    · intro q _ _; rfl
    · intro n tc h; simp at h
    · intro n tc h; simp at h
    · intro n tc h; simp at h
    · simp [loopEvents]
  | cons head rest ih =>
    obtain ⟨n, tc⟩ := head
    intro st st1 pm acc hnodup hwfn hwft hGood hMf hDirs hman hrun
    have hwfhead : wfNameB mf n = true := hwfn (n, tc) (List.mem_cons_self _ _)
    have hnmf : n ≠ mf := wfNameB_ne_mf hwfhead
    have hrestne : ∀ nc ∈ rest, nc.1 ≠ n := nodup_head_not_mem hnodup
    have hnodup2 : (rest.map Prod.fst).Nodup := by
      rw [List.map_cons, List.nodup_cons] at hnodup
      exact hnodup.2
    have hwfn2 : ∀ nc ∈ rest, wfNameB mf nc.1 = true :=
      fun nc h => hwfn nc (List.mem_cons_of_mem _ h)
    have hwft2 : ∀ nc ∈ rest, WfTree mf nc.2 :=
      fun nc h => hwft nc (List.mem_cons_of_mem _ h)
    have hmp_ne_node : dp ++ [mf] ≠ dp ++ [n] := by
      intro h
      exact hnmf (snoc_eq_iff.mp h).symm
    have hnode_ne_mp : dp ++ [n] ≠ dp ++ [mf] := by
      intro h
      exact hnmf (snoc_eq_iff.mp h)
    have hpfx_node_mp : pfx (dp ++ [n]) (dp ++ [mf]) = false := by
      by_cases hb : pfx (dp ++ [n]) (dp ++ [mf]) = true
      · exact absurd (snoc_pfx_snoc_iff.mp hb) hnmf
      · exact Bool.eq_false_iff.mpr hb
    by_cases hφ : φ n = true
    · by_cases hdir : isDirT tc = true
      · -- accepted directory child
        rw [processChildren_step_dir mf φ _ n tc rest sp dp st hwfhead hφ hdir] at hrun
        cases hmk : mkdirAll (dp ++ [n]) (lstatMode tc) st.fs with
        | mk fs2 errm =>
          rw [hmk] at hrun
          cases errm with
          | some e => simp at hrun
          | none =>
            simp only [] at hrun
            have Mk := mkdirAll_snoc_char hDirs hmk
            cases hrec : copyFolder mf φ fuel tc (sp ++ [n]) (dp ++ [n])
                ⟨fs2, st.events ++ [.filterCall sp n]⟩ with
            | mk st3 errc =>
              rw [hrec] at hrun
              cases errc with
              | some e => simp at hrun
              | none =>
                simp only [] at hrun
                -- hypotheses for the recursive call
                have hGood2 : GoodL (lookupFs fs2) := by
                  refine GoodL_ext Mk (GoodL_ite ?_ hGood)
                  intro pm2 L2 c2 h2
                  cases h2
                have hMf2 : MfFreeL mf (lookupFs fs2) := by
                  refine MfFreeL_ext Mk (MfFreeL_ite ?_ hMf)
                  rw [dropLast_snoc]
                  exact hmfdp
                have hDirs2 : DirsOkL (dp ++ [n]) (lookupFs fs2) := by
                  intro q hq hpq
                  rcases pfx_snoc_cases hpq with rfl | h2
                  · rw [Mk _, if_pos rfl]
                    exact ⟨_, rfl⟩
                  · rw [Mk q, if_neg (ne_snoc_of_short h2)]
                    exact hDirs q hq h2
                have hmfdp2 : mf ∉ dp ++ [n] := by
                  intro h
                  rcases List.mem_append.mp h with h | h
                  · exact hmfdp h
                  · simp at h
                    exact hnmf h.symm
                obtain ⟨Cchar, Cframe, CGood3, CMf3, CEv3⟩ :=
                  IH tc (sp ++ [n]) (dp ++ [n]) ⟨fs2, st.events ++ [.filterCall sp n]⟩ st3
                    (hwft (n, tc) (List.mem_cons_self _ _)) hGood2 hMf2 hDirs2 hmfdp2 hrec
                -- facts for composing frames
                have Fc2 : ∀ q, pfx (dp ++ [n]) q = false →
                    lookupFs st3.fs q = lookupFs st.fs q := by
                  intro q hq
                  rw [Cframe q (fun h => absurd h (by simp [hq])), Mk q,
                    if_neg (by intro he; rw [he, pfx_refl] at hq; simp at hq)]
                have hman3 : lookupFs st3.fs (dp ++ [mf]) =
                    some (.dmanifest pm acc false) := by
                  rw [Fc2 _ hpfx_node_mp]
                  exact hman
                have hDirs3 : DirsOkL dp (lookupFs st3.fs) := by
                  intro q hq hpq
                  rw [Fc2 q (pfx_snoc_of_short hpq)]
                  exact hDirs q hq hpq
                obtain ⟨CM, CFr, CRej, CFile, CDir, CGood, CMf2, CDirs, CEv⟩ :=
                  ih st3 st1 pm acc hnodup2 hwfn2 hwft2 CGood3 CMf3 hDirs3 hman3 hrun
                -- frame from st1 back to st for q outside every processed region
                have Fall : ∀ q, q ≠ dp ++ [mf] →
                    (∀ n2 ∈ ((n, tc) :: rest).map Prod.fst, pfx (dp ++ [n2]) q = false) →
                    lookupFs st1.fs q = lookupFs st.fs q := by
                  intro q hq hns
                  rw [CFr q hq (fun n2 h => hns n2 (List.mem_cons_of_mem _ h)),
                    Fc2 q (hns n (List.mem_cons_self _ _))]
                have Frest_node : ∀ q, pfx (dp ++ [n]) q = true →
                    lookupFs st1.fs q = lookupFs st3.fs q := by
                  intro q hq
                  obtain ⟨r, rfl⟩ := pfx_exists hq
                  refine CFr _ ?_ ?_
                  · rw [List.append_assoc]
                    intro he
                    rcases cons_append_eq_snoc_iff.mp he with ⟨he1, -⟩
                    exact hnmf he1
                  · intro n2 hn2
                    rw [List.append_assoc]
                    refine pfx_snoc_cons_false _ ?_
                    obtain ⟨nc, hnc, rfl⟩ := List.mem_map.mp hn2
                    exact hrestne nc hnc
                refine ⟨?_, ?_, ?_, ?_, ?_, CGood, CMf2, CDirs, ?_⟩
                · -- manifest contents
                  rw [CM]
                  simp [acceptedFileNames, List.filter_cons, hφ, hdir]
                · -- untouched frame
                  exact Fall
                · -- rejected children
                  intro n2 tc2 hmem hφ2 q hq
                  rcases List.mem_cons.mp hmem with he | hmem2
                  · cases he
                    simp [hφ2] at hφ
                  · have hne : n2 ≠ n := hrestne (n2, tc2) hmem2
                    rw [CRej n2 tc2 hmem2 hφ2 q hq]
                    obtain ⟨r, rfl⟩ := pfx_exists hq
                    rw [List.append_assoc]
                    exact Fc2 _ (pfx_snoc_cons_false _ (Ne.symm hne))
                · -- accepted file children
                  intro n2 tc2 hmem hφ2 hdir2
                  rcases List.mem_cons.mp hmem with he | hmem2
                  · cases he
                    simp [hdir2] at hdir
                  · have hne : n2 ≠ n := hrestne (n2, tc2) hmem2
                    obtain ⟨h1, h2⟩ := CFile n2 tc2 hmem2 hφ2 hdir2
                    constructor
                    · rw [h1, Fc2 (dp ++ [n2])
                        (by rw [show dp ++ [n2] = dp ++ n2 :: [] from rfl];
                            exact pfx_snoc_cons_false _ (Ne.symm hne))]
                    · intro rest2 hrest2
                      rw [h2 rest2 hrest2,
                        Fc2 (dp ++ n2 :: rest2) (pfx_snoc_cons_false _ (Ne.symm hne))]
                · -- accepted directory children
                  intro n2 tc2 hmem hφ2 hdir2
                  rcases List.mem_cons.mp hmem with he | hmem2
                  · cases he
                    have hnodeval : lookupFs st3.fs (dp ++ [n]) =
                        some (.ddir (dirPermFrom (lookupFs st.fs (dp ++ [n]))
                          (lstatMode tc))) := by
                      rw [Cframe (dp ++ [n]) (fun _ => rfl), Mk _, if_pos rfl]
                    refine ⟨?_, ?_⟩
                    · rw [Frest_node _ (pfx_refl _)]
                      exact hnodeval
                    · refine InnerChar_congr mf φ fuel tc (dp ++ [n]) _ _ _ _ ?_ ?_ Cchar
                      · intro q hq hqe
                        have hl : lookupFs fs2 q = lookupFs st.fs q := by
                          rw [Mk q, if_neg hqe]
                        simp only [hl, if_neg hqe]
                      · intro q hq hqe
                        exact (Frest_node q hq).symm
                  · have hne : n2 ≠ n := hrestne (n2, tc2) hmem2
                    have hq2 : pfx (dp ++ [n]) (dp ++ [n2]) = false := by
                      rw [show dp ++ [n2] = dp ++ n2 :: [] from rfl]
                      exact pfx_snoc_cons_false _ (Ne.symm hne)
                    obtain ⟨h1, h2⟩ := CDir n2 tc2 hmem2 hφ2 hdir2
                    refine ⟨?_, ?_⟩
                    · rw [h1, Fc2 _ hq2]
                    · refine InnerChar_congr mf φ fuel tc2 (dp ++ [n2]) _ _ _ _ ?_
                        (fun q _ _ => rfl) h2
                      intro q hq hqe
                      have hl : lookupFs st3.fs q = lookupFs st.fs q := by
                        obtain ⟨c, r, hqr⟩ := (strictUnder_iff _ _).mp ⟨hq, hqe⟩
                        rw [hqr, List.append_assoc]
                        exact Fc2 _ (pfx_snoc_cons_false _ (Ne.symm hne))
                      simp only [hl, if_neg hqe]
                · -- events
                  rw [CEv, CEv3]
                  simp [loopEvents, hφ, hdir, List.append_assoc]
      · -- accepted file child
        rw [processChildren_step_file mf φ _ n tc rest sp dp st hwfhead hφ
          (by simpa using hdir)] at hrun
        rw [mkdirAll_noop hDirs] at hrun
        simp only [] at hrun
        cases hw : writeFileFs (dp ++ [n]) (fileContent (resolve tc))
            (filePerm (resolve tc)) st.fs with
        | mk fs3 errw =>
          rw [hw] at hrun
          cases errw with
          | some e => simp at hrun
          | none =>
            simp only [] at hrun
            have W := writeFile_char hw
            have hman3 : lookupFs fs3 (dp ++ [mf]) = some (.dmanifest pm acc false) := by
              rw [W _, if_neg hmp_ne_node]
              exact hman
            have A := @addFile_char (dp ++ [mf]) (dp ++ [n]) fs3 pm acc hman3
            set stn : St := ⟨addFileManifest (dp ++ [mf]) (dp ++ [n]) fs3,
              (st.events ++ [.filterCall sp n]) ++ [.copiedEv (dp ++ [n])]⟩ with hstn
            have Anew : ∀ q, lookupFs stn.fs q =
                if q = dp ++ [mf]
                then some (.dmanifest pm (acc ++ [dp ++ [n]]) false)
                else lookupFs fs3 q := A
            have haccGood := hGood _ pm acc false hman
            have hGoodn : GoodL (lookupFs stn.fs) := by
              refine GoodL_ext Anew (GoodL_ite ?_ (GoodL_ext W (GoodL_ite ?_ hGood)))
              · intro pm2 L2 c2 h2 x hx
                cases h2
                rcases List.mem_append.mp hx with hx | hx
                · exact haccGood x hx
                · simp only [List.mem_singleton] at hx
                  subst hx
                  refine ⟨by simp, ?_⟩
                  rw [dropLast_snoc, dropLast_snoc]
              · intro pm2 L2 c2 h2
                cases h2
            have hMfn : MfFreeL mf (lookupFs stn.fs) := by
              refine MfFreeL_ext Anew (MfFreeL_ite ?_ (MfFreeL_ext W (MfFreeL_ite ?_ hMf)))
              · rw [dropLast_snoc]; exact hmfdp
              · rw [dropLast_snoc]; exact hmfdp
            have Fn : ∀ q, q ≠ dp ++ [mf] → pfx (dp ++ [n]) q = false →
                lookupFs stn.fs q = lookupFs st.fs q := by
              intro q hq1 hq2
              rw [Anew q, if_neg hq1, W q,
                if_neg (by intro he; rw [he, pfx_refl] at hq2; simp at hq2)]
            have hDirsn : DirsOkL dp (lookupFs stn.fs) := by
              intro q hq hpq
              rw [Fn q (ne_snoc_of_short hpq) (pfx_snoc_of_short hpq)]
              exact hDirs q hq hpq
            have hmann : lookupFs stn.fs (dp ++ [mf]) =
                some (.dmanifest pm (acc ++ [dp ++ [n]]) false) := by
              rw [Anew _, if_pos rfl]
            obtain ⟨CM, CFr, CRej, CFile, CDir, CGood, CMf2, CDirs, CEv⟩ :=
              ih stn st1 pm (acc ++ [dp ++ [n]]) hnodup2 hwfn2 hwft2 hGoodn hMfn hDirsn
                hmann hrun
            have Frest : ∀ q, q ≠ dp ++ [mf] →
                (∀ n2 ∈ rest.map Prod.fst, pfx (dp ++ [n2]) q = false) →
                lookupFs st1.fs q = lookupFs stn.fs q := CFr
            have Frest_node : ∀ q, pfx (dp ++ [n]) q = true →
                lookupFs st1.fs q = lookupFs stn.fs q := by
              intro q hq
              obtain ⟨r, rfl⟩ := pfx_exists hq
              refine CFr _ ?_ ?_
              · rw [List.append_assoc]
                intro he
                rcases cons_append_eq_snoc_iff.mp he with ⟨he1, -⟩
                exact hnmf he1
              · intro n2 hn2
                rw [List.append_assoc]
                refine pfx_snoc_cons_false _ ?_
                obtain ⟨nc, hnc, rfl⟩ := List.mem_map.mp hn2
                exact hrestne nc hnc
            refine ⟨?_, ?_, ?_, ?_, ?_, CGood, CMf2, CDirs, ?_⟩
            · rw [CM]
              simp [acceptedFileNames, List.filter_cons, hφ, hdir, List.append_assoc]
            · intro q hq hns
              rw [Frest q hq (fun n2 h => hns n2 (List.mem_cons_of_mem _ h)),
                Fn q hq (hns n (List.mem_cons_self _ _))]
            · intro n2 tc2 hmem hφ2 q hq
              rcases List.mem_cons.mp hmem with he | hmem2
              · cases he
                simp [hφ2] at hφ
              · have hne : n2 ≠ n := hrestne (n2, tc2) hmem2
                have hne2 : n2 ≠ mf := wfNameB_ne_mf (hwfn2 (n2, tc2) hmem2)
                rw [CRej n2 tc2 hmem2 hφ2 q hq]
                obtain ⟨r, rfl⟩ := pfx_exists hq
                rw [List.append_assoc]
                refine Fn _ ?_ (pfx_snoc_cons_false _ (Ne.symm hne))
                intro he
                exact hne2 (cons_append_eq_snoc_iff.mp he).1
            · intro n2 tc2 hmem hφ2 hdir2
              rcases List.mem_cons.mp hmem with he | hmem2
              · cases he
                constructor
                · rw [Frest_node _ (pfx_refl _), Anew _, if_neg hnode_ne_mp, W _,
                    if_pos rfl]
                · intro rest2 hrest2
                  have hq1 : dp ++ n :: rest2 ≠ dp ++ [mf] := by
                    intro he
                    rcases cons_append_eq_snoc_iff.mp he with ⟨-, he2⟩
                    exact hrest2 he2
                  have hq2 : dp ++ n :: rest2 ≠ dp ++ [n] := by
                    intro he
                    rcases cons_append_eq_snoc_iff.mp he with ⟨-, he2⟩
                    exact hrest2 he2
                  rw [Frest_node _ (by
                      rw [show dp ++ n :: rest2 = (dp ++ [n]) ++ rest2 from by simp]
                      exact pfx_append _ _),
                    Anew _, if_neg hq1, W _, if_neg hq2]
              · have hne : n2 ≠ n := hrestne (n2, tc2) hmem2
                have hne2 : n2 ≠ mf := wfNameB_ne_mf (hwfn2 (n2, tc2) hmem2)
                obtain ⟨h1, h2⟩ := CFile n2 tc2 hmem2 hφ2 hdir2
                constructor
                · rw [h1, Fn (dp ++ [n2])
                    (by intro he; exact hne2 (snoc_eq_iff.mp he))
                    (by rw [show dp ++ [n2] = dp ++ n2 :: [] from rfl];
                        exact pfx_snoc_cons_false _ (Ne.symm hne))]
                · intro rest2 hrest2
                  rw [h2 rest2 hrest2, Fn (dp ++ n2 :: rest2)
                    (by intro he; exact hne2 (cons_append_eq_snoc_iff.mp he).1)
                    (pfx_snoc_cons_false _ (Ne.symm hne))]
            · intro n2 tc2 hmem hφ2 hdir2
              rcases List.mem_cons.mp hmem with he | hmem2
              · cases he
                exact absurd hdir2 (by simpa using hdir)
              · have hne : n2 ≠ n := hrestne (n2, tc2) hmem2
                have hne2 : n2 ≠ mf := wfNameB_ne_mf (hwfn2 (n2, tc2) hmem2)
                have hfn2 : lookupFs stn.fs (dp ++ [n2]) = lookupFs st.fs (dp ++ [n2]) := by
                  refine Fn _ (by intro he; exact hne2 (snoc_eq_iff.mp he)) ?_
                  rw [show dp ++ [n2] = dp ++ n2 :: [] from rfl]
                  exact pfx_snoc_cons_false _ (Ne.symm hne)
                obtain ⟨h1, h2⟩ := CDir n2 tc2 hmem2 hφ2 hdir2
                refine ⟨by rw [h1, hfn2], ?_⟩
                refine InnerChar_congr mf φ fuel tc2 (dp ++ [n2]) _ _ _ _ ?_
                  (fun q _ _ => rfl) h2
                intro q hq hqe
                have hl : lookupFs stn.fs q = lookupFs st.fs q := by
                  obtain ⟨c, r, hqr⟩ := (strictUnder_iff _ _).mp ⟨hq, hqe⟩
                  rw [hqr, List.append_assoc]
                  refine Fn _ ?_ (pfx_snoc_cons_false _ (Ne.symm hne))
                  intro he
                  exact hne2 (cons_append_eq_snoc_iff.mp he).1
                simp only [hl, if_neg hqe]
            · rw [CEv]
              simp [hstn, loopEvents, hφ, hdir, List.append_assoc]
    · -- rejected child
      have hφf : φ n = false := by simpa using hφ
      rw [processChildren_step_reject mf φ _ n tc rest sp dp st hφf] at hrun
      obtain ⟨CM, CFr, CRej, CFile, CDir, CGood, CMf2, CDirs, CEv⟩ :=
        ih ⟨st.fs, st.events ++ [.filterCall sp n]⟩ st1 pm acc hnodup2 hwfn2 hwft2
          hGood hMf hDirs hman hrun
      have Frest_node : ∀ q, pfx (dp ++ [n]) q = true →
          lookupFs st1.fs q = lookupFs st.fs q := by
        intro q hq
        obtain ⟨r, rfl⟩ := pfx_exists hq
        refine CFr _ ?_ ?_
        · rw [List.append_assoc]
          intro he
          rcases cons_append_eq_snoc_iff.mp he with ⟨he1, -⟩
          exact hnmf he1
        · intro n2 hn2
          rw [List.append_assoc]
          refine pfx_snoc_cons_false _ ?_
          obtain ⟨nc, hnc, rfl⟩ := List.mem_map.mp hn2
          exact hrestne nc hnc
      refine ⟨?_, ?_, ?_, ?_, ?_, CGood, CMf2, CDirs, ?_⟩
      · rw [CM]
        simp [acceptedFileNames, List.filter_cons, hφf]
      · intro q hq hns
        exact CFr q hq (fun n2 h => hns n2 (List.mem_cons_of_mem _ h))
      · intro n2 tc2 hmem hφ2 q hq
        rcases List.mem_cons.mp hmem with he | hmem2
        · cases he
          exact Frest_node q hq
        · exact CRej n2 tc2 hmem2 hφ2 q hq
      · intro n2 tc2 hmem hφ2 hdir2
        rcases List.mem_cons.mp hmem with he | hmem2
        · cases he
          simp [hφ2] at hφf
        · exact CFile n2 tc2 hmem2 hφ2 hdir2
      · intro n2 tc2 hmem hφ2 hdir2
        rcases List.mem_cons.mp hmem with he | hmem2
        · cases he
          simp [hφ2] at hφf
        · exact CDir n2 tc2 hmem2 hφ2 hdir2
      · rw [CEv]
        simp [loopEvents, hφf, List.append_assoc]

/-! ### Remaining support for the master theorem -/

theorem recListO_shape {look : Path → Option DNode} {dp : Path} {mf : String}
    (hg : GoodL look) :
    ∀ x ∈ recListO look (dp ++ [mf]), ∃ y, x = dp ++ [y] := by
  intro x hx
  unfold recListO at hx
  cases hm : look (dp ++ [mf]) with
  | none => simp only [hm] at hx; simp at hx
  | some v =>
    cases v with
    | dfile p c => simp only [hm] at hx; simp at hx
    | ddir p => simp only [hm] at hx; simp at hx
    | dmanifest pm L c =>
      simp only [hm] at hx
      obtain ⟨hne, hdl⟩ := hg _ pm L c hm x hx
      rw [dropLast_snoc] at hdl
      have h2 : x.dropLast ++ [x.getLast hne] = x := List.dropLast_append_getLast hne
      rw [hdl] at h2
      exact ⟨x.getLast hne, h2.symm⟩

theorem afterCC_outside {mf : String} {dp : Path} {look : Path → Option DNode}
    (hg : GoodL look) :
    ∀ q, (pfx dp q = true → q = dp) → afterCC mf look dp q = look q := by
  intro q hq
  unfold afterCC
  have h1 : q ≠ dp ++ [mf] := by
    intro he
    have := hq (he ▸ pfx_append dp [mf])
    rw [this] at he
    exact snoc_ne_self dp mf he.symm
  have h2 : pfx (dp ++ [mf]) q = false := by
    by_cases hb : pfx (dp ++ [mf]) q = true
    · have := hq (pfx_trans (pfx_append dp [mf]) hb)
      subst this
      rw [pfx_snoc_false] at hb
      cases hb
    · exact Bool.eq_false_iff.mpr hb
  have h3 : (recListO look (dp ++ [mf])).any (fun p => pfx p q) = false := by
    rw [List.any_eq_false]
    intro x hx
    obtain ⟨y, rfl⟩ := recListO_shape hg x hx
    intro hb
    have := hq (pfx_trans (pfx_append dp [y]) (by simpa using hb))
    subst this
    rw [pfx_snoc_false] at hb
    simp at hb
  rw [if_neg h1, h2, h3]
  simp

theorem DirsOkL_afterCC {mf : String} {dp : Path} {look : Path → Option DNode}
    (hg : GoodL look) (hd : DirsOkL dp look) : DirsOkL dp (afterCC mf look dp) := by
  intro q hq hpq
  unfold afterCC
  have h1 : q ≠ dp ++ [mf] := ne_snoc_of_short hpq
  have h2 : pfx (dp ++ [mf]) q = false := pfx_snoc_of_short hpq
  have h3 : (recListO look (dp ++ [mf])).any (fun p => pfx p q) = false := by
    rw [List.any_eq_false]
    intro x hx
    obtain ⟨y, rfl⟩ := recListO_shape hg x hx
    simp [pfx_snoc_of_short hpq]
  rw [if_neg h1, h2, h3]
  simp only [Bool.false_eq_true, if_false]
  exact hd q hq hpq

theorem mem_acceptedDirNames {φ : String → Bool} {cs : List (String × FSTree)} {n : String} :
    n ∈ acceptedDirNames φ cs ↔ ∃ tc, (n, tc) ∈ cs ∧ φ n = true ∧ isDirT tc = true := by
  unfold acceptedDirNames
  rw [List.mem_map]
  constructor
  · rintro ⟨⟨n1, tc⟩, hmem, rfl⟩
    rw [List.mem_filter] at hmem
    obtain ⟨h1, h2⟩ := hmem
    rw [Bool.and_eq_true] at h2
    exact ⟨tc, h1, h2.1, h2.2⟩
  · rintro ⟨tc, h1, h2, h3⟩
    exact ⟨(n, tc), List.mem_filter.mpr ⟨h1, by simp [h2, h3]⟩, rfl⟩

theorem mem_acceptedFileNames {φ : String → Bool} {cs : List (String × FSTree)} {n : String} :
    n ∈ acceptedFileNames φ cs ↔ ∃ tc, (n, tc) ∈ cs ∧ φ n = true ∧ isDirT tc = false := by
  unfold acceptedFileNames
  rw [List.mem_map]
  constructor
  · rintro ⟨⟨n1, tc⟩, hmem, rfl⟩
    rw [List.mem_filter] at hmem
    obtain ⟨h1, h2⟩ := hmem
    rw [Bool.and_eq_true] at h2
    refine ⟨tc, h1, h2.1, ?_⟩
    simpa using h2.2
  · rintro ⟨tc, h1, h2, h3⟩
    exact ⟨(n, tc), List.mem_filter.mpr ⟨h1, by simp [h2, h3]⟩, rfl⟩

/-! ### The master theorem: pointwise characterisation of a successful run -/

/-- A successful run of `CopyFolderContentsWithFilter` on a well-formed
source tree, starting from a destination filesystem whose manifests are the
engine's own, where nothing nests below manifest names and the destination
directory exists: the region strictly below `dp` afterwards is described by
`InnerChar`, everything else is untouched, the sanity conditions are
preserved, and the event trace is `mirrorEventsF`. -/
theorem copyFolder_char (mf : String) (φ : String → Bool) :
    ∀ (fuel : Nat) (t : FSTree) (sp dp : Path) (st st1 : St),
      WfTree mf t →
      GoodL (lookupFs st.fs) →
      MfFreeL mf (lookupFs st.fs) →
      DirsOkL dp (lookupFs st.fs) →
      mf ∉ dp →
      copyFolder mf φ fuel t sp dp st = (st1, none) →
      InnerChar mf φ fuel t dp (lookupFs st.fs) (lookupFs st1.fs) ∧
      (∀ q, (pfx dp q = true → q = dp) → lookupFs st1.fs q = lookupFs st.fs q) ∧
      GoodL (lookupFs st1.fs) ∧ MfFreeL mf (lookupFs st1.fs) ∧
      st1.events = st.events ++ mirrorEventsF φ fuel t sp dp := by
  intro fuel
  induction fuel with
  | zero =>
    intro t sp dp st st1 _ _ _ _ _ hrun
    simp [copyFolder] at hrun
  | succ fuel IH =>
    intro t sp dp st st1 hwf hGood hMf hDirs hmfdp hrun
    simp only [copyFolder] at hrun
    cases hclean : cleanManifest (dp ++ [mf]) st.fs with
    | mk fs1 errc =>
      rw [hclean] at hrun
      cases errc with
      | some e => simp at hrun
      | none =>
        simp only [] at hrun
        cases hcreate : createManifest (dp ++ [mf]) fs1 with
        | mk fs2 errc2 =>
          rw [hcreate] at hrun
          cases errc2 with
          | some e => simp at hrun
          | none =>
            simp only [] at hrun
            have CC := cleanCreate_char hMf hclean hcreate
            cases hloop : processChildren mf φ
                (fun tc sp2 dp2 st2 => copyFolder mf φ fuel tc sp2 dp2 st2)
                (listChildren t) sp dp ⟨fs2, st.events ++ [.createdEv dp]⟩ with
            | mk st3 errl =>
              rw [hloop] at hrun
              cases errl with
              | some e => simp at hrun
              | none =>
                simp only [] at hrun
                have hst1 : st1 = ⟨st3.fs, st3.events ++ [.closedEv dp]⟩ :=
                  (congrArg Prod.fst hrun).symm
                have hst1fs : lookupFs st1.fs = lookupFs st3.fs := by rw [hst1]
                have hGood2 : GoodL (lookupFs fs2) :=
                  GoodL_ext CC (GoodL_afterCC hGood)
                have hMf2 : MfFreeL mf (lookupFs fs2) :=
                  MfFreeL_ext CC (MfFreeL_afterCC hmfdp hMf)
                have hDirs2 : DirsOkL dp (lookupFs fs2) :=
                  DirsOkL_ext CC (DirsOkL_afterCC hGood hDirs)
                have hman2 : lookupFs fs2 (dp ++ [mf]) =
                    some (.dmanifest 0o644 [] false) := by
                  rw [CC]
                  unfold afterCC
                  rw [if_pos rfl]
                obtain ⟨CM, CFr, CRej, CFile, CDir, CGood, CMf2, CDirs, CEv⟩ :=
                  processChildren_char mf φ fuel sp dp hmfdp IH (listChildren t)
                    ⟨fs2, st.events ++ [.createdEv dp]⟩ st3 0o644 []
                    hwf.children_nodup hwf.children_wfName hwf.children_wf
                    hGood2 hMf2 hDirs2 hman2 hloop
                have hout : ∀ q, (pfx dp q = true → q = dp) →
                    lookupFs st1.fs q = lookupFs st.fs q := by
                  intro q hq
                  have h1 : q ≠ dp ++ [mf] := by
                    intro he
                    subst he
                    have := hq (pfx_append dp [mf])
                    exact snoc_ne_self dp mf this
                  have h2 : ∀ n2 ∈ (listChildren t).map Prod.fst,
                      pfx (dp ++ [n2]) q = false := by
                    intro n2 _
                    by_cases hb : pfx (dp ++ [n2]) q = true
                    · have := hq (pfx_trans (pfx_append dp [n2]) hb)
                      subst this
                      rw [pfx_snoc_false] at hb
                      cases hb
                    · exact Bool.eq_false_iff.mpr hb
                  rw [hst1fs, CFr q h1 h2, CC q]
                  exact afterCC_outside hGood q hq
                refine ⟨?_, hout, by rw [hst1fs]; exact CGood,
                  by rw [hst1fs]; exact CMf2, ?_⟩
                · -- the InnerChar conjunction at this level
                  refine ⟨?_, ?_, ?_, ?_⟩
                  · rw [hst1fs, CM]
                    simp [fileChildNames]
                  · -- untouched paths strictly below dp
                    intro n rest hnd hrf
                    rw [hst1fs]
                    by_cases hmem : n ∈ (listChildren t).map Prod.fst
                    · obtain ⟨⟨n1, tcn⟩, hmemc, he⟩ := List.mem_map.mp hmem
                      cases he
                      by_cases hφn : φ n1 = true
                      · by_cases hdirn : isDirT tcn = true
                        · exact absurd (mem_acceptedDirNames.mpr ⟨tcn, hmemc, hφn, hdirn⟩)
                            hnd
                        · have hdirn2 : isDirT tcn = false := by simpa using hdirn
                          cases rest with
                          | nil =>
                            exact absurd (mem_acceptedFileNames.mpr
                              ⟨tcn, hmemc, hφn, hdirn2⟩) ((hrf rfl).2)
                          | cons c cr =>
                            obtain ⟨-, h2⟩ := CFile n1 tcn hmemc hφn hdirn2
                            rw [h2 (c :: cr) (by simp), CC]
                      · have hφn2 : φ n1 = false := by simpa using hφn
                        have hpq : pfx (dp ++ [n1]) (dp ++ n1 :: rest) = true := by
                          rw [show dp ++ n1 :: rest = (dp ++ [n1]) ++ rest from by simp]
                          exact pfx_append _ _
                        rw [CRej n1 tcn hmemc hφn2 _ hpq, CC]
                    · have h1 : dp ++ n :: rest ≠ dp ++ [mf] := by
                        intro he
                        obtain ⟨he1, he2⟩ := cons_append_eq_snoc_iff.mp he
                        exact (hrf he2).1 he1
                      have h2 : ∀ n2 ∈ (listChildren t).map Prod.fst,
                          pfx (dp ++ [n2]) (dp ++ n :: rest) = false := by
                        intro n2 hn2
                        refine pfx_snoc_cons_false _ ?_
                        intro he
                        subst he
                        exact hmem hn2
                      rw [CFr _ h1 h2, CC]
                  · -- accepted file children
                    intro n tcn hmemc hφn hdirn
                    rw [hst1fs, (CFile n tcn hmemc hφn hdirn).1, CC]
                  · -- accepted directory children
                    intro n tcn hmemc hφn hdirn
                    obtain ⟨h1, h2⟩ := CDir n tcn hmemc hφn hdirn
                    constructor
                    · rw [hst1fs, h1, CC]
                    · refine InnerChar_congr mf φ fuel tcn (dp ++ [n]) _ _ _ _ ?_
                        (by intro q _ _; rw [hst1fs]) h2
                      intro q hq hqe
                      obtain ⟨hq2, hqe2⟩ := strictUnder_step hq hqe
                      unfold childOldL
                      simp only [if_neg hqe]
                      rw [CC q]
                · -- events
                  rw [hst1, CEv]
                  simp [mirrorEventsF, List.append_assoc]

/-! ### Evaluating the post-clean state at child paths -/

theorem afterCC_cons {mf : String} {old : Path → Option DNode} {dp : Path}
    {n : String} (rest : Path) (hnm : n ≠ mf) :
    afterCC mf old dp (dp ++ n :: rest) =
      if (recListO old (dp ++ [mf])).any (fun p => pfx p (dp ++ n :: rest)) then none
      else old (dp ++ n :: rest) := by
  unfold afterCC
  rw [if_neg (by intro he; exact hnm (cons_append_eq_snoc_iff.mp he).1),
    pfx_snoc_cons_false _ (Ne.symm hnm)]
  simp

theorem any_recList_cons {mf : String} {old : Path → Option DNode} {dp : Path}
    {n : String} (rest : Path) (hg : GoodL old) :
    ((recListO old (dp ++ [mf])).any (fun p => pfx p (dp ++ n :: rest)) = true) ↔
      dp ++ [n] ∈ recListO old (dp ++ [mf]) := by
  constructor
  · intro h
    rw [List.any_eq_true] at h
    obtain ⟨x, hx, hpx⟩ := h
    obtain ⟨y, rfl⟩ := recListO_shape hg x hx
    have := (pfx_snoc_cons dp y n rest).mp hpx
    subst this
    exact hx
  · intro h
    rw [List.any_eq_true]
    refine ⟨dp ++ [n], h, ?_⟩
    rw [show dp ++ n :: rest = (dp ++ [n]) ++ rest from by simp]
    exact pfx_append _ _

/-- A name keyed twice in a `Nodup`-named child list has a unique subtree. -/
theorem mem_nodup_unique {cs : List (String × FSTree)} {n : String} {a b : FSTree}
    (hnd : (cs.map Prod.fst).Nodup) (ha : (n, a) ∈ cs) (hb : (n, b) ∈ cs) : a = b := by
  induction cs with
  | nil => simp at ha
  | cons c rest ih =>
    obtain ⟨cn, ct⟩ := c
    rw [List.map_cons, List.nodup_cons] at hnd
    rcases List.mem_cons.mp ha with hea | ha2
    · rcases List.mem_cons.mp hb with heb | hb2
      · cases hea; cases heb; rfl
      · cases hea
        exact absurd (List.mem_map.mpr ⟨(n, b), hb2, rfl⟩) hnd.1
    · rcases List.mem_cons.mp hb with heb | hb2
      · cases heb
        exact absurd (List.mem_map.mpr ⟨(n, a), ha2, rfl⟩) hnd.1
      · exact ih hnd.2 ha2 hb2

theorem file_dir_names_disjoint {φ : String → Bool} {cs : List (String × FSTree)}
    {n : String} (hnd : (cs.map Prod.fst).Nodup)
    (hf : n ∈ acceptedFileNames φ cs) (hd : n ∈ acceptedDirNames φ cs) : False := by
  obtain ⟨a, ha, -, hfa⟩ := mem_acceptedFileNames.mp hf
  obtain ⟨b, hb, -, hdb⟩ := mem_acceptedDirNames.mp hd
  cases mem_nodup_unique hnd ha hb
  rw [hfa] at hdb
  cases hdb

theorem childNamed_of_mem_nodup {cs : List (String × FSTree)} {n : String} {tc : FSTree}
    (hnd : (cs.map Prod.fst).Nodup) (h : (n, tc) ∈ cs) : childNamed cs n = some tc := by
  induction cs with
  | nil => simp at h
  | cons c rest ih =>
    obtain ⟨cn, ct⟩ := c
    rw [List.map_cons, List.nodup_cons] at hnd
    by_cases he : cn = n
    · subst he
      rcases List.mem_cons.mp h with hea | h2
      · cases hea
        simp [childNamed, List.find?]
      · exact absurd (List.mem_map.mpr ⟨(cn, tc), h2, rfl⟩) hnd.1
    · rcases List.mem_cons.mp h with hea | h2
      · cases hea
        exact absurd rfl he
      · unfold childNamed
        rw [List.find?_cons_of_neg _ (by simpa using he)]
        exact ih hnd.2 h2

/-- Membership in a fold of appended blocks. -/
theorem mem_foldr_append {α β : Type} (f : α → List β) (cs : List α) (x : β) :
    x ∈ cs.foldr (fun c acc => f c ++ acc) [] ↔ ∃ c ∈ cs, x ∈ f c := by
  induction cs with
  | nil => simp
  | cons c rest ih =>
    simp only [List.foldr_cons, List.mem_append, ih, List.mem_cons]
    constructor
    · rintro (h | ⟨c2, h1, h2⟩)
      · exact ⟨c, Or.inl rfl, h⟩
      · exact ⟨c2, Or.inr h1, h2⟩
    · rintro ⟨c2, h1 | h1, h2⟩
      · cases h1; exact Or.inl h2
      · exact Or.inr ⟨c2, h1, h2⟩

theorem nil_mem_visitedDirsF {φ : String → Bool} {fuel : Nat} {t : FSTree} :
    [] ∈ visitedDirsF φ fuel t ↔ 0 < fuel := by
  cases fuel with
  | zero => simp [visitedDirsF]
  | succ fuel => simp [visitedDirsF]

theorem visitedDirsF_succ (φ : String → Bool) (fuel : Nat) (t : FSTree) :
    visitedDirsF φ (fuel + 1) t =
      [] :: (listChildren t).foldr
        (fun nc acc =>
          (if φ nc.1 && isDirT nc.2
           then (visitedDirsF φ fuel nc.2).map (fun r => nc.1 :: r)
           else []) ++ acc) [] := rfl

theorem cons_mem_visitedDirsF {φ : String → Bool} {fuel : Nat} {t : FSTree}
    {m : String} {r2 : Path} :
    m :: r2 ∈ visitedDirsF φ (fuel + 1) t ↔
      ∃ tc, (m, tc) ∈ listChildren t ∧ φ m = true ∧ isDirT tc = true ∧
        r2 ∈ visitedDirsF φ fuel tc := by
  rw [visitedDirsF_succ]
  rw [List.mem_cons]
  constructor
  · rintro (h | h)
    · cases h
    · rw [mem_foldr_append] at h
      obtain ⟨⟨n, tc⟩, hmem, hx⟩ := h
      by_cases hc : φ n && isDirT tc
      · rw [if_pos hc] at hx
        rw [List.mem_map] at hx
        obtain ⟨r3, hr3, he⟩ := hx
        obtain ⟨he1, he2⟩ := List.cons.inj he
        subst he1
        subst he2
        rw [Bool.and_eq_true] at hc
        exact ⟨tc, hmem, hc.1, hc.2, hr3⟩
      · rw [if_neg hc] at hx
        simp at hx
  · rintro ⟨tc, hmem, h1, h2, h3⟩
    refine Or.inr ?_
    rw [mem_foldr_append]
    refine ⟨(m, tc), hmem, ?_⟩
    rw [if_pos (by simp [h1, h2])]
    exact List.mem_map.mpr ⟨r2, h3, rfl⟩

theorem zero_not_mem_visitedDirsF {φ : String → Bool} {t : FSTree} {r : Path} :
    r ∉ visitedDirsF φ 0 t := by
  simp [visitedDirsF]

/-! ### Descending the characterisation to a visited directory -/

/-- Descend `InnerChar` along a visited relative path `r`: the subrun at
`dp ++ r` is characterised by `InnerChar` against an entry lookup `oldc`
that — restricted to the region strictly below `dp ++ r` — is either the
original lookup unchanged (no ancestor cleanup removed this subtree) or
constantly `none` (some ancestor cleanup removed it wholesale). -/
theorem InnerChar_descend (mf : String) (φ : String → Bool) :
    ∀ (r : Path) (fuel : Nat) (t : FSTree) (dp : Path)
      (old new : Path → Option DNode),
      WfTree mf t →
      InnerChar mf φ fuel t dp old new → GoodL old →
      r ∈ visitedDirsF φ fuel t →
      ∃ (fuel2 : Nat) (tv : FSTree) (oldc : Path → Option DNode),
        fuel = fuel2 + r.length ∧ 0 < fuel2 ∧
        subtreeAtD t r = some tv ∧ WfTree mf tv ∧
        InnerChar mf φ fuel2 tv (dp ++ r) oldc new ∧
        GoodL oldc ∧
        ((∀ q, pfx (dp ++ r) q = true → q ≠ dp ++ r → oldc q = none) ∨
         (∀ q, pfx (dp ++ r) q = true → q ≠ dp ++ r → oldc q = old q)) := by
  intro r
  induction r with
  | nil =>
    intro fuel t dp old new hwf hchar hg hmem
    rw [nil_mem_visitedDirsF] at hmem
    refine ⟨fuel, t, old, by simp, hmem, rfl, hwf, by simpa using hchar, hg, ?_⟩
    right
    intro q _ _
    rfl
  | cons m r2 ih =>
    intro fuel t dp old new hwf hchar hg hmem
    cases fuel with
    | zero => exact absurd hmem zero_not_mem_visitedDirsF
    | succ fuel =>
      obtain ⟨tc, hmemc, hφm, hdirm, hr2⟩ := cons_mem_visitedDirsF.mp hmem
      have hwfm : wfNameB mf m = true := hwf.children_wfName (m, tc) hmemc
      have hmmf : m ≠ mf := wfNameB_ne_mf hwfm
      obtain ⟨-, -, -, hD⟩ := hchar
      obtain ⟨-, hrec⟩ := hD m tc hmemc hφm hdirm
      have hgc : GoodL (childOldL mf old dp m (lstatMode tc)) := by
        refine GoodL_ext (fun q => rfl) (GoodL_ite ?_ (GoodL_afterCC hg))
        intro pm L c h
        cases h
      obtain ⟨fuel2, tv, oldc, hfe, hfp, hsub, hwfv, hchar2, hgc2, hkk⟩ :=
        ih fuel tc (dp ++ [m]) (childOldL mf old dp m (lstatMode tc)) new
          (hwf.children_wf (m, tc) hmemc) hrec hgc hr2
      have hpath : dp ++ m :: r2 = (dp ++ [m]) ++ r2 := by simp
      refine ⟨fuel2, tv, oldc, by simp [hfe]; omega, hfp, ?_, hwfv, ?_, hgc2, ?_⟩
      · unfold subtreeAtD
        rw [childNamed_of_mem_nodup hwf.children_nodup hmemc]
        exact hsub
      · rw [hpath]
        exact hchar2
      · have hstep : ∀ q, pfx (dp ++ m :: r2) q = true → q ≠ dp ++ m :: r2 →
            pfx (dp ++ [m]) q = true ∧ q ≠ dp ++ [m] := by
          intro q hq hqe
          rw [hpath] at hq hqe
          refine ⟨pfx_trans (pfx_append (dp ++ [m]) r2) hq, ?_⟩
          intro heq
          subst heq
          have hlen := pfx_length hq
          simp only [List.length_append] at hlen
          have hr2nil : r2 = [] := List.eq_nil_of_length_eq_zero (by omega)
          subst hr2nil
          exact hqe (by simp)
        rcases hkk with hkill | hkeep
        · left
          intro q hq hqe
          rw [hpath] at hq hqe
          exact hkill q hq hqe
        · by_cases hrem : dp ++ [m] ∈ recListO old (dp ++ [mf])
          · left
            intro q hq hqe
            obtain ⟨hq2, hqe2⟩ := hstep q hq hqe
            rw [hpath] at hq hqe
            rw [hkeep q hq hqe]
            obtain ⟨c2, r3, he⟩ := (strictUnder_iff (dp ++ [m]) q).mp ⟨hq2, hqe2⟩
            unfold childOldL
            rw [if_neg hqe2, he,
              show (dp ++ [m]) ++ c2 :: r3 = dp ++ m :: (c2 :: r3) from by simp,
              afterCC_cons _ hmmf,
              if_pos ((any_recList_cons _ hg).mpr hrem)]
          · right
            intro q hq hqe
            obtain ⟨hq2, hqe2⟩ := hstep q hq hqe
            rw [hpath] at hq hqe
            rw [hkeep q hq hqe]
            obtain ⟨c2, r3, he⟩ := (strictUnder_iff (dp ++ [m]) q).mp ⟨hq2, hqe2⟩
            unfold childOldL
            rw [if_neg hqe2, he,
              show (dp ++ [m]) ++ c2 :: r3 = dp ++ m :: (c2 :: r3) from by simp,
              afterCC_cons _ hmmf,
              if_neg (by intro hb; exact hrem ((any_recList_cons _ hg).mp hb))]

/-! ### Event-trace lemmas -/

/-- The destination paths recorded by copy events whose parent directory is
`D` — the files the run wrote directly into `D`. -/
def copiedAt (D : Path) (ev : List Event) : List Path :=
  ev.filterMap (fun e => match e with
    | .copiedEv p => if p.dropLast = D then some p else none
    | _ => none)

/-- Occurrence count of one event. -/
def countEv (e : Event) : List Event → Nat
  | [] => 0
  | x :: xs => (if x = e then 1 else 0) + countEv e xs

theorem countEv_append (e : Event) (a b : List Event) :
    countEv e (a ++ b) = countEv e a + countEv e b := by
  induction a with
  | nil => simp [countEv]
  | cons x xs ih => simp [countEv, ih]; omega

theorem copiedAt_append (D : Path) (a b : List Event) :
    copiedAt D (a ++ b) = copiedAt D a ++ copiedAt D b := by
  unfold copiedAt
  rw [List.filterMap_append]

theorem copiedAt_nil_of {D : Path} {ev : List Event}
    (h : ∀ p, Event.copiedEv p ∈ ev → p.dropLast ≠ D) : copiedAt D ev = [] := by
  unfold copiedAt
  rw [List.filterMap_eq_nil]
  intro e he
  cases e with
  | copiedEv p => simp [h p he]
  | filterCall d s => rfl
  | createdEv d => rfl
  | closedEv d => rfl

theorem loopEvents_nil (φ : String → Bool) (recEv : FSTree → Path → Path → List Event)
    (sp dp : Path) : loopEvents φ recEv [] sp dp = [] := rfl

theorem loopEvents_cons (φ : String → Bool) (recEv : FSTree → Path → Path → List Event)
    (n : String) (tc : FSTree) (rest : List (String × FSTree)) (sp dp : Path) :
    loopEvents φ recEv ((n, tc) :: rest) sp dp =
      Event.filterCall sp n ::
      ((if φ n then
          (if isDirT tc then recEv tc (sp ++ [n]) (dp ++ [n])
           else [Event.copiedEv (dp ++ [n])])
        else []) ++ loopEvents φ recEv rest sp dp) := rfl

theorem mirrorEventsF_succ (φ : String → Bool) (fuel : Nat) (t : FSTree) (sp dp : Path) :
    mirrorEventsF φ (fuel + 1) t sp dp =
      Event.createdEv dp ::
      (loopEvents φ (fun tc sp2 dp2 => mirrorEventsF φ fuel tc sp2 dp2)
          (listChildren t) sp dp
       ++ [Event.closedEv dp]) := rfl

theorem mem_loopEvents {φ : String → Bool} {recEv : FSTree → Path → Path → List Event}
    {e : Event} {sp dp : Path} :
    ∀ {cs : List (String × FSTree)}, e ∈ loopEvents φ recEv cs sp dp →
      ∃ (n : String) (tc : FSTree), (n, tc) ∈ cs ∧
        (e = .filterCall sp n ∨
         (φ n = true ∧ isDirT tc = true ∧ e ∈ recEv tc (sp ++ [n]) (dp ++ [n])) ∨
         (φ n = true ∧ isDirT tc = false ∧ e = .copiedEv (dp ++ [n]))) := by
  intro cs
  induction cs with
  | nil => intro h; simp [loopEvents_nil] at h
  | cons c rest ih =>
    obtain ⟨n, tc⟩ := c
    intro h
    rw [loopEvents_cons, List.mem_cons] at h
    rcases h with h | h
    · exact ⟨n, tc, List.mem_cons_self _ _, Or.inl h⟩
    · rw [List.mem_append] at h
      rcases h with h | h
      · by_cases hφ : φ n = true
        · rw [if_pos hφ] at h
          by_cases hdir : isDirT tc = true
          · rw [if_pos hdir] at h
            exact ⟨n, tc, List.mem_cons_self _ _, Or.inr (Or.inl ⟨hφ, hdir, h⟩)⟩
          · rw [if_neg hdir] at h
            simp only [List.mem_singleton] at h
            exact ⟨n, tc, List.mem_cons_self _ _,
              Or.inr (Or.inr ⟨hφ, by simpa using hdir, h⟩)⟩
        · rw [if_neg hφ] at h
          simp at h
      · obtain ⟨n2, tc2, hmem, hdis⟩ := ih h
        exact ⟨n2, tc2, List.mem_cons_of_mem _ hmem, hdis⟩

/-- Every copy event of a run targets a path strictly below the run's
destination directory. -/
theorem copied_pfx (mf : String) (φ : String → Bool) :
    ∀ (fuel : Nat) (t : FSTree) (sp dp : Path) (p : Path),
      Event.copiedEv p ∈ mirrorEventsF φ fuel t sp dp →
      pfx dp p.dropLast = true := by
  intro fuel
  induction fuel with
  | zero => intro t sp dp p h; simp [mirrorEventsF] at h
  | succ fuel ih =>
    intro t sp dp p h
    rw [mirrorEventsF_succ, List.mem_cons] at h
    rcases h with h | h
    · cases h
    · rw [List.mem_append] at h
      rcases h with h | h
      · obtain ⟨n, tc, hmem, hdis⟩ := mem_loopEvents h
        rcases hdis with h2 | ⟨-, -, h2⟩ | ⟨-, -, h2⟩
        · cases h2
        · exact pfx_trans (pfx_append dp [n]) (ih tc (sp ++ [n]) (dp ++ [n]) p h2)
        · cases h2
          rw [dropLast_snoc]
          exact pfx_refl dp
      · simp at h

theorem copiedAt_cons (D : Path) (e : Event) (ev : List Event) :
    copiedAt D (e :: ev) = copiedAt D [e] ++ copiedAt D ev := by
  rw [show e :: ev = [e] ++ ev from rfl, copiedAt_append]

theorem copiedAt_filterCall (D sp : Path) (s : String) :
    copiedAt D [Event.filterCall sp s] = [] := rfl

theorem copiedAt_created (D dp : Path) : copiedAt D [Event.createdEv dp] = [] := rfl

theorem copiedAt_closed (D dp : Path) : copiedAt D [Event.closedEv dp] = [] := rfl

theorem copiedAt_copied (D p : Path) :
    copiedAt D [Event.copiedEv p] = if p.dropLast = D then [p] else [] := by
  unfold copiedAt
  rw [List.filterMap_cons]
  by_cases h : p.dropLast = D <;> simp [h]

/-- No copy event in a child-loop block names a directory whose path starts
with a child name absent from the list. -/
theorem copiedAt_loop_nil (mf : String) (φ : String → Bool) (fuel : Nat)
    (sp dp : Path) (m : String) (r2 : Path) :
    ∀ cs : List (String × FSTree), m ∉ cs.map Prod.fst →
      copiedAt (dp ++ m :: r2) (loopEvents φ
        (fun tc2 sp2 dp2 => mirrorEventsF φ fuel tc2 sp2 dp2) cs sp dp) = [] := by
  intro cs hm
  refine copiedAt_nil_of ?_
  intro p hp he
  obtain ⟨n2, tc2, hmem2, hdis⟩ := mem_loopEvents hp
  have hn2 : n2 ≠ m := by
    intro h
    subst h
    exact hm (List.mem_map.mpr ⟨(n2, tc2), hmem2, rfl⟩)
  rcases hdis with h2 | ⟨-, -, h2⟩ | ⟨-, -, h2⟩
  · cases h2
  · have hpf := copied_pfx mf φ fuel tc2 (sp ++ [n2]) (dp ++ [n2]) p h2
    rw [he, pfx_snoc_cons_false r2 hn2] at hpf
    cases hpf
  · cases h2
    rw [dropLast_snoc] at he
    have := congrArg List.length he
    simp at this

/-- The copies recorded directly into a visited directory are exactly the
accepted file children of its source counterpart, in listing order. -/
theorem copiedAt_mirrorEvents (mf : String) (φ : String → Bool) :
    ∀ (r : Path) (fuel : Nat) (t : FSTree) (sp dp : Path) (tv : FSTree),
      WfTree mf t →
      r ∈ visitedDirsF φ fuel t →
      subtreeAtD t r = some tv →
      copiedAt (dp ++ r) (mirrorEventsF φ fuel t sp dp) =
        (fileChildNames φ tv).map (fun n => (dp ++ r) ++ [n]) := by
  intro r
  induction r with
  | nil =>
    intro fuel t sp dp tv hwf hmem hsub
    cases fuel with
    | zero => exact absurd hmem zero_not_mem_visitedDirsF
    | succ fuel =>
      obtain rfl : t = tv := by simpa [subtreeAtD] using hsub
      rw [mirrorEventsF_succ, copiedAt_cons, copiedAt_append, copiedAt_created,
        copiedAt_closed]
      simp only [List.nil_append, List.append_nil]
      unfold fileChildNames
      have hgen : ∀ cs : List (String × FSTree),
          copiedAt dp (loopEvents φ
            (fun tc sp2 dp2 => mirrorEventsF φ fuel tc sp2 dp2) cs sp dp) =
          (acceptedFileNames φ cs).map (fun n => dp ++ [n]) := by
        intro cs
        induction cs with
        | nil => simp [loopEvents_nil, copiedAt, acceptedFileNames]
        | cons c rest ihc =>
          obtain ⟨n, tc⟩ := c
          rw [loopEvents_cons, copiedAt_cons, copiedAt_append, copiedAt_filterCall, ihc]
          simp only [List.nil_append, List.append_nil]
          by_cases hφ : φ n = true
          · by_cases hdir : isDirT tc = true
            · rw [if_pos hφ, if_pos hdir]
              have hz : copiedAt dp
                  (mirrorEventsF φ fuel tc (sp ++ [n]) (dp ++ [n])) = [] := by
                refine copiedAt_nil_of ?_
                intro p hp he
                have hpf := copied_pfx mf φ fuel tc (sp ++ [n]) (dp ++ [n]) p hp
                rw [he] at hpf
                have := pfx_length hpf
                simp at this
              rw [hz]
              simp [acceptedFileNames, List.filter_cons, hφ, hdir]
            · rw [if_pos hφ, if_neg hdir]
              rw [copiedAt_copied]
              rw [if_pos (by simp)]
              simp [acceptedFileNames, List.filter_cons, hφ, by simpa using hdir]
          · rw [if_neg hφ]
            rw [show copiedAt dp ([] : List Event) = [] from rfl]
            simp [acceptedFileNames, List.filter_cons, by simpa using hφ]
      exact hgen (listChildren t)
  | cons m r2 ihr =>
    intro fuel t sp dp tv hwf hmem hsub
    cases fuel with
    | zero => exact absurd hmem zero_not_mem_visitedDirsF
    | succ fuel =>
      obtain ⟨tc, hmemc, hφm, hdirm, hr2⟩ := cons_mem_visitedDirsF.mp hmem
      have hsub2 : subtreeAtD tc r2 = some tv := by
        unfold subtreeAtD at hsub
        rw [childNamed_of_mem_nodup hwf.children_nodup hmemc] at hsub
        exact hsub
      rw [mirrorEventsF_succ, copiedAt_cons, copiedAt_append, copiedAt_created,
        copiedAt_closed]
      simp only [List.nil_append, List.append_nil]
      have hloop : ∀ cs : List (String × FSTree),
          (cs.map Prod.fst).Nodup →
          (∀ nc ∈ cs, WfTree mf nc.2) →
          (m, tc) ∈ cs →
          copiedAt (dp ++ m :: r2) (loopEvents φ
            (fun tc2 sp2 dp2 => mirrorEventsF φ fuel tc2 sp2 dp2) cs sp dp) =
            (fileChildNames φ tv).map (fun n => ((dp ++ m :: r2) ++ [n])) := by
        intro cs
        induction cs with
        | nil => intro _ _ h; simp at h
        | cons c rest ihc =>
          obtain ⟨n2, tc2⟩ := c
          intro hnd hwfc hmem2
          have hndh := hnd
          rw [List.map_cons, List.nodup_cons] at hndh
          rw [loopEvents_cons, copiedAt_cons, copiedAt_append, copiedAt_filterCall]
          simp only [List.nil_append]
          by_cases hnm : n2 = m
          · subst hnm
            have htc : tc2 = tc := by
              rcases List.mem_cons.mp hmem2 with he | hmem3
              · cases he
                rfl
              · exact absurd (List.mem_map.mpr ⟨(n2, tc), hmem3, rfl⟩) hndh.1
            subst htc
            rw [if_pos hφm, if_pos hdirm]
            have hchild := ihr fuel tc2 (sp ++ [n2]) (dp ++ [n2]) tv
              (hwfc (n2, tc2) (List.mem_cons_self _ _)) hr2 hsub2
            rw [copiedAt_loop_nil mf φ fuel sp dp n2 r2 rest hndh.1]
            have halign : dp ++ n2 :: r2 = (dp ++ [n2]) ++ r2 := by simp
            rw [halign, hchild]
            simp
          · have hblock : copiedAt (dp ++ m :: r2)
                (if φ n2 = true then
                  (if isDirT tc2 = true
                   then mirrorEventsF φ fuel tc2 (sp ++ [n2]) (dp ++ [n2])
                   else [Event.copiedEv (dp ++ [n2])])
                 else []) = [] := by
              have h1 := copiedAt_loop_nil mf φ fuel sp dp m r2 [(n2, tc2)]
                (by simpa using fun h => hnm h.symm)
              rw [loopEvents_cons, loopEvents_nil, List.append_nil, copiedAt_cons,
                copiedAt_filterCall, List.nil_append] at h1
              exact h1
            rw [hblock]
            simp only [List.nil_append]
            refine ihc hndh.2 (fun nc h => hwfc nc (List.mem_cons_of_mem _ h)) ?_
            rcases List.mem_cons.mp hmem2 with he | hmem3
            · cases he
              exact absurd rfl hnm
            · exact hmem3
      exact hloop (listChildren t) hwf.children_nodup hwf.children_wf hmemc

/-- Every filter application of a run receives a bare child name of the
immediate source directory listed at that level: the event's directory is
`sp ++ r` for a visited `r` and its argument is the name of one of that
directory's children. -/
theorem filterCall_shape (mf : String) (φ : String → Bool) :
    ∀ (fuel : Nat) (t : FSTree) (sp dp : Path) (d : Path) (s : String),
      WfTree mf t →
      Event.filterCall d s ∈ mirrorEventsF φ fuel t sp dp →
      ∃ (r : Path) (tv tc : FSTree),
        d = sp ++ r ∧ r ∈ visitedDirsF φ fuel t ∧
        subtreeAtD t r = some tv ∧ (s, tc) ∈ listChildren tv := by
  intro fuel
  induction fuel with
  | zero => intro t sp dp d s _ h; simp [mirrorEventsF] at h
  | succ fuel ih =>
    intro t sp dp d s hwf h
    rw [mirrorEventsF_succ, List.mem_cons] at h
    rcases h with h | h
    · cases h
    · rw [List.mem_append] at h
      rcases h with h | h
      · obtain ⟨n, tc, hmem, hdis⟩ := mem_loopEvents h
        rcases hdis with h2 | ⟨hφn, hdirn, h2⟩ | ⟨-, -, h2⟩
        · obtain ⟨he1, he2⟩ := Event.filterCall.inj h2
          subst he1
          subst he2
          refine ⟨[], t, tc, by simp, ?_, rfl, hmem⟩
          rw [nil_mem_visitedDirsF]
          omega
        · obtain ⟨r2, tv, tc2, hd2, hmem2, hsub2, hmemc2⟩ :=
            ih tc (sp ++ [n]) (dp ++ [n]) d s (hwf.children_wf (n, tc) hmem) h2
          refine ⟨n :: r2, tv, tc2, by rw [hd2]; simp, ?_, ?_, hmemc2⟩
          · exact cons_mem_visitedDirsF.mpr ⟨tc, hmem, hφn, hdirn, hmem2⟩
          · unfold subtreeAtD
            rw [childNamed_of_mem_nodup hwf.children_nodup hmem]
            exact hsub2
        · cases h2
      · simp at h

/-- On a successful run, each destination directory sees as many manifest
`Close` events as `Create` events. -/
theorem countEv_created_closed (mf : String) (φ : String → Bool) :
    ∀ (fuel : Nat) (t : FSTree) (sp dp D : Path),
      countEv (.createdEv D) (mirrorEventsF φ fuel t sp dp) =
      countEv (.closedEv D) (mirrorEventsF φ fuel t sp dp) := by
  intro fuel
  induction fuel with
  | zero => intro t sp dp D; rfl
  | succ fuel ih =>
    intro t sp dp D
    rw [mirrorEventsF_succ]
    have hloop : ∀ cs : List (String × FSTree),
        countEv (.createdEv D) (loopEvents φ
          (fun tc sp2 dp2 => mirrorEventsF φ fuel tc sp2 dp2) cs sp dp) =
        countEv (.closedEv D) (loopEvents φ
          (fun tc sp2 dp2 => mirrorEventsF φ fuel tc sp2 dp2) cs sp dp) := by
      intro cs
      induction cs with
      | nil => rfl
      | cons c rest ihc =>
        obtain ⟨n, tc⟩ := c
        rw [loopEvents_cons]
        simp only [countEv, countEv_append]
        rw [ihc]
        by_cases hφn : φ n = true
        · by_cases hdirn : isDirT tc = true
          · rw [if_pos hφn, if_pos hdirn, ih tc (sp ++ [n]) (dp ++ [n]) D]
            simp
          · rw [if_pos hφn, if_neg hdirn]
            simp [countEv]
        · rw [if_neg hφn]
          simp [countEv]
    simp only [countEv, countEv_append, hloop (listChildren t)]
    by_cases hD : dp = D
    · subst hD
      simp [countEv] <;> omega
    · simp [countEv, hD] <;> omega

/-! ### Runs into an initially empty destination region -/

/-- Executable check: the filesystem has no entry strictly below `dp`. -/
def emptyBelowB (dp : Path) (fs : Fs) : Bool :=
  fs.all (fun e => decide (e.1 = dp) || !(pfx dp e.1))

theorem emptyBelowB_sound {dp : Path} {fs : Fs} (h : emptyBelowB dp fs = true) :
    ∀ q, pfx dp q = true → q ≠ dp → lookupFs fs q = none := by
  intro q hq hqe
  cases hl : lookupFs fs q with
  | none => rfl
  | some v =>
    have hmem := lookupFs_mem hl
    unfold emptyBelowB at h
    rw [List.all_eq_true] at h
    have h2 := h _ hmem
    rw [Bool.or_eq_true] at h2
    rcases h2 with h2 | h2
    · exact absurd (of_decide_eq_true h2) hqe
    · rw [hq] at h2
      cases h2

theorem recListO_of_none {look : Path → Option DNode} {mpath : Path}
    (h : look mpath = none) : recListO look mpath = [] := by
  unfold recListO
  rw [h]

theorem any_pfx_mapped (dp : Path) (l : List String) (n : String) (rest : Path) :
    (((l.map (fun y => dp ++ [y])).any (fun p => pfx p (dp ++ n :: rest))) = true) ↔
      n ∈ l := by
  rw [List.any_eq_true]
  constructor
  · rintro ⟨p, hp, hpx⟩
    obtain ⟨y, hy, rfl⟩ := List.mem_map.mp hp
    have := (pfx_snoc_cons dp y n rest).mp hpx
    subst this
    exact hy
  · intro hn
    refine ⟨dp ++ [n], List.mem_map.mpr ⟨n, hn, rfl⟩, ?_⟩
    exact (pfx_snoc_cons dp n n rest).mpr rfl

/-- A second run over the same tree reproduces the first run's destination
region exactly, when the first run started from an empty region: pointwise
equality strictly below `dp`. -/
theorem idem_aux (mf : String) (φ : String → Bool) :
    ∀ (fuel1 fuel2 : Nat) (t : FSTree) (dp : Path)
      (old1 new1 old2 new2 : Path → Option DNode),
      WfTree mf t →
      InnerChar mf φ fuel1 t dp old1 new1 →
      InnerChar mf φ fuel2 t dp old2 new2 →
      MfFreeL mf new1 → MfFreeL mf new2 →
      (∀ q, pfx dp q = true → q ≠ dp → old1 q = none) →
      (∀ q, pfx dp q = true → q ≠ dp → old2 q = new1 q) →
      ∀ q, pfx dp q = true → q ≠ dp → new2 q = new1 q := by
  intro fuel1
  induction fuel1 with
  | zero =>
    intro fuel2 t dp old1 new1 old2 new2 _ h1
    cases h1
  | succ fuel1 ih =>
    intro fuel2 t dp old1 new1 old2 new2 hwf h1 h2 hmf1 hmf2 hold1 hold2 q hq hqe
    cases fuel2 with
    | zero => cases h2
    | succ fuel2 =>
      obtain ⟨hM1, hU1, hF1, hD1⟩ := h1
      obtain ⟨hM2, hU2, hF2, hD2⟩ := h2
      obtain ⟨n, rest, rfl⟩ := (strictUnder_iff dp q).mp ⟨hq, hqe⟩
      have hmpU : pfx dp (dp ++ [mf]) = true := pfx_append _ _
      have hmpN : dp ++ [mf] ≠ dp := snoc_ne_self _ _
      have hrl1 : recListO old1 (dp ++ [mf]) = [] :=
        recListO_of_none (hold1 _ hmpU hmpN)
      have hrl2 : recListO old2 (dp ++ [mf]) =
          (fileChildNames φ t).map (fun y => dp ++ [y]) := by
        unfold recListO
        rw [hold2 _ hmpU hmpN, hM1]
      by_cases hdirn : n ∈ dirChildNames φ t
      · obtain ⟨tc, hmemc, hφn, hdirb⟩ := mem_acceptedDirNames.mp hdirn
        have hwfn : wfNameB mf n = true := hwf.children_wfName (n, tc) hmemc
        have hnmf : n ≠ mf := wfNameB_ne_mf hwfn
        have hnf : n ∉ fileChildNames φ t := by
          intro hc
          exact file_dir_names_disjoint hwf.children_nodup hc hdirn
        have hnode1 := (hD1 n tc hmemc hφn hdirb).1
        have hchar1 := (hD1 n tc hmemc hφn hdirb).2
        have hnode2 := (hD2 n tc hmemc hφn hdirb).1
        have hval1 : afterCC mf old1 dp (dp ++ [n]) = none := by
          rw [afterCC_cons [] hnmf, hrl1]
          simp only [List.any_nil, Bool.false_eq_true, if_false]
          exact hold1 _ (pfx_append _ _) (snoc_ne_self _ _)
        have hval2 : afterCC mf old2 dp (dp ++ [n]) = new1 (dp ++ [n]) := by
          rw [afterCC_cons [] hnmf, hrl2,
            if_neg (by
              intro hb
              exact hnf ((any_pfx_mapped dp _ n []).mp hb))]
          exact hold2 _ (pfx_append _ _) (snoc_ne_self _ _)
        cases rest with
        | nil =>
          rw [hnode2, hval2, hnode1, hval1]
          simp [dirPermFrom]
        | cons c cr =>
          have hq2 : pfx (dp ++ [n]) (dp ++ n :: c :: cr) = true := by
            rw [show dp ++ n :: c :: cr = (dp ++ [n]) ++ c :: cr from by simp]
            exact pfx_append _ _
          have hq2e : dp ++ n :: c :: cr ≠ dp ++ [n] := by
            intro he
            obtain ⟨-, he2⟩ := cons_append_eq_snoc_iff.mp he
            cases he2
          refine ih fuel2 tc (dp ++ [n]) _ new1 _ new2
            (hwf.children_wf (n, tc) hmemc) hchar1 ((hD2 n tc hmemc hφn hdirb).2)
            hmf1 hmf2 ?_ ?_ _ hq2 hq2e
          · intro q2 hq3 hq3e
            unfold childOldL
            rw [if_neg hq3e]
            obtain ⟨c2, r3, he⟩ := (strictUnder_iff (dp ++ [n]) q2).mp ⟨hq3, hq3e⟩
            rw [he, show (dp ++ [n]) ++ c2 :: r3 = dp ++ n :: (c2 :: r3) from by simp,
              afterCC_cons _ hnmf, hrl1]
            simp only [List.any_nil, Bool.false_eq_true, if_false]
            refine hold1 _ ?_ ?_
            · rw [show dp ++ n :: (c2 :: r3) = (dp ++ [n]) ++ c2 :: r3 from by simp]
              exact pfx_trans (pfx_append dp [n]) (pfx_append _ _)
            · rw [show dp ++ n :: (c2 :: r3) = (dp ++ [n]) ++ c2 :: r3 from by simp]
              intro he2
              have := congrArg List.length he2
              simp at this
          · intro q2 hq3 hq3e
            unfold childOldL
            rw [if_neg hq3e]
            obtain ⟨c2, r3, he⟩ := (strictUnder_iff (dp ++ [n]) q2).mp ⟨hq3, hq3e⟩
            rw [he, show (dp ++ [n]) ++ c2 :: r3 = dp ++ n :: (c2 :: r3) from by simp,
              afterCC_cons _ hnmf, hrl2,
              if_neg (by
                intro hb
                exact hnf ((any_pfx_mapped dp _ n (c2 :: r3)).mp hb))]
            refine hold2 _ ?_ ?_
            · rw [show dp ++ n :: (c2 :: r3) = (dp ++ [n]) ++ c2 :: r3 from by simp]
              exact pfx_trans (pfx_append dp [n]) (pfx_append _ _)
            · rw [show dp ++ n :: (c2 :: r3) = (dp ++ [n]) ++ c2 :: r3 from by simp]
              intro he2
              have := congrArg List.length he2
              simp at this
      · by_cases hfn : n ∈ fileChildNames φ t
        · obtain ⟨tc, hmemc, hφn, hdirb⟩ := mem_acceptedFileNames.mp hfn
          have hwfn : wfNameB mf n = true := hwf.children_wfName (n, tc) hmemc
          have hnmf : n ≠ mf := wfNameB_ne_mf hwfn
          cases rest with
          | nil =>
            rw [hF2 n tc hmemc hφn hdirb, hF1 n tc hmemc hφn hdirb]
            have hval1 : afterCC mf old1 dp (dp ++ [n]) = none := by
              rw [afterCC_cons [] hnmf, hrl1]
              simp only [List.any_nil, Bool.false_eq_true, if_false]
              exact hold1 _ (pfx_append _ _) (snoc_ne_self _ _)
            have hval2 : afterCC mf old2 dp (dp ++ [n]) = none := by
              rw [afterCC_cons [] hnmf, hrl2,
                if_pos ((any_pfx_mapped dp _ n []).mpr hfn)]
            rw [hval1, hval2]
          | cons c cr =>
            rw [hU2 n (c :: cr) hdirn (by intro h; cases h),
              hU1 n (c :: cr) hdirn (by intro h; cases h)]
            have hval1 : afterCC mf old1 dp (dp ++ n :: c :: cr) = none := by
              rw [afterCC_cons _ hnmf, hrl1]
              simp only [List.any_nil, Bool.false_eq_true, if_false]
              refine hold1 _ (pfx_append _ _) (cons_append_ne_self _ _ _)
            have hval2 : afterCC mf old2 dp (dp ++ n :: c :: cr) = none := by
              rw [afterCC_cons _ hnmf, hrl2,
                if_pos ((any_pfx_mapped dp _ n (c :: cr)).mpr hfn)]
            rw [hval1, hval2]
        · by_cases hnm : n = mf
          · cases rest with
            | nil =>
              rw [hnm, hM2, hM1]
            | cons c cr =>
              have hmem1 : mf ∈ (dp ++ n :: c :: cr).dropLast := by
                rw [hnm, show dp ++ mf :: c :: cr = dp ++ [mf] ++ c :: cr from by simp]
                exact mf_mem_dropLast dp mf (c :: cr) (by simp)
              rw [hmf1 _ hmem1, hmf2 _ hmem1]
          · have hval2 : afterCC mf old2 dp (dp ++ n :: rest) =
                new1 (dp ++ n :: rest) := by
              rw [afterCC_cons _ hnm, hrl2,
                if_neg (fun hb => hfn ((any_pfx_mapped dp _ n rest).mp hb))]
              exact hold2 _ (pfx_append _ _) (cons_append_ne_self _ _ _)
            rw [hU2 n rest hdirn (fun _ => ⟨hnm, hfn⟩), hval2]

/-! ### The claims -/

/-- C9: the default filter used by `CopyFolderContents` returns `false` for a
relative path exactly when some slash-separated component of the path starts
with `.` and is neither the literal component `.` nor `..`; every path all of
whose components avoid that pattern is accepted. -/
theorem C9_default_filter (path : String) :
    defaultFilter path = false ↔
      ∃ part ∈ splitSlash path,
        startsWithDot part = true ∧ part ≠ "." ∧ part ≠ ".." := by
  simp only [defaultFilter, PathContainsHiddenFileOrFolder, Bool.not_eq_false',
    List.any_eq_true, Bool.and_eq_true, Bool.not_eq_true', decide_eq_false_iff_not]
  constructor
  · rintro ⟨part, hmem, ⟨h1, h2⟩, h3⟩
    exact ⟨part, hmem, h1, h2, h3⟩
  · rintro ⟨part, hmem, h1, h2, h3⟩
    exact ⟨part, hmem, ⟨h1, h2⟩, h3⟩

/-- A destination filesystem with one directory, one decodable manifest
record and one recorded file, used to exercise `C6_clean_contract`. -/
def c6Fs : Fs :=
  [(["d"], .ddir 0o755),
   (["d", "m"], .dmanifest 0o644 [["d", "a"]] false),
   (["d", "a"], .dfile 0o600 "A")]

/-- C6: `fileManifest.Clean` succeeds without touching the filesystem when no
record exists at the manifest's path; on a decodable record it removes every
recorded path recursively (removal of an absent path is silently fine, as
`lookup_removeAll` shows) and then the record itself, succeeding; and it
errors exactly when reading or decoding the record fails (a record with
undecodable bytes, a non-empty non-record file, or a directory at the
record's path). -/
theorem C6_clean_contract (mpath : Path) (fs : Fs) :
    (lookupFs fs mpath = none → cleanManifest mpath fs = (fs, none)) ∧
    (∀ pm L, lookupFs fs mpath = some (.dmanifest pm L false) →
      (cleanManifest mpath fs).2 = none ∧
      ∀ q, lookupFs (cleanManifest mpath fs).1 q =
        if pfx mpath q = true then none
        else if L.any (fun p => pfx p q) = true then none
        else lookupFs fs q) ∧
    ((cleanManifest mpath fs).2.isSome = true ↔
      (∃ pm L, lookupFs fs mpath = some (.dmanifest pm L true)) ∨
      (∃ pm c, lookupFs fs mpath = some (.dfile pm c) ∧ c ≠ "") ∨
      (∃ pm, lookupFs fs mpath = some (.ddir pm))) := by
  refine ⟨?_, ?_, ?_⟩
  · intro h
    unfold cleanManifest
    rw [h]
  · intro pm L h
    have he : cleanManifest mpath fs = (removeAllFs mpath (removeList L fs), none) := by
      simp [cleanManifest, h, removeList]
    rw [he]
    refine ⟨rfl, ?_⟩
    intro q
    show lookupFs (removeAllFs mpath (removeList L fs)) q = _
    rw [lookup_removeAll, lookup_removeList]
  · cases hl : lookupFs fs mpath with
    | none =>
      have he : cleanManifest mpath fs = (fs, none) := by
        unfold cleanManifest
        rw [hl]
      rw [he]
      simp [hl]
    | some v =>
      cases v with
      | dfile p c =>
        by_cases hc : c = ""
        · subst hc
          have he : cleanManifest mpath fs = (removeAllFs mpath fs, none) := by
            simp [cleanManifest, hl]
          rw [he]
          simp [hl]
        · have he : cleanManifest mpath fs = (fs, some (.decodeError mpath)) := by
            simp [cleanManifest, hl, hc]
          rw [he]
          simp [hl, hc]
          exact ⟨p, c, ⟨rfl, rfl⟩, hc⟩
      | ddir p =>
        have he : cleanManifest mpath fs = (fs, some (.ioError mpath)) := by
          simp [cleanManifest, hl]
        rw [he]
        simp [hl]
      | dmanifest pm L c =>
        cases c with
        | false =>
          have he : cleanManifest mpath fs =
              (removeAllFs mpath (removeList L fs), none) := by
            simp [cleanManifest, hl, removeList]
          rw [he]
          simp [hl]
        | true =>
          have he : cleanManifest mpath fs =
              (removeList L fs, some (.decodeError mpath)) := by
            simp [cleanManifest, hl, removeList]
          rw [he]
          simp [hl]

theorem C6_clean_contract_witness :
    lookupFs c6Fs ["d", "m"] = some (.dmanifest 0o644 [["d", "a"]] false) ∧
    (cleanManifest ["d", "m"] c6Fs).2 = none ∧
    lookupFs (cleanManifest ["d", "m"] c6Fs).1 ["d", "a"] = none ∧
    lookupFs (cleanManifest ["d", "m"] c6Fs).1 ["d", "m"] = none ∧
    lookupFs (cleanManifest ["d", "m"] c6Fs).1 ["d"] = some (.ddir 0o755) := by
  have h := (C6_clean_contract ["d", "m"] c6Fs).2.1 0o644 [["d", "a"]] (by decide)
  refine ⟨by decide, h.1, ?_, ?_, ?_⟩
  · rw [h.2 ["d", "a"]]
    decide
  · rw [h.2 ["d", "m"]]
    decide
  · rw [h.2 ["d"]]
    decide

/-- C10 is false as stated: in the very scenario the claim contemplates — a
file child to copy whose destination parent directory is missing — the
program never creates that parent with `0700`.  The parent of a copied
file's destination is the current destination directory itself (children are
copied one level deep), and `manifest.Create()` already fails with `ENOENT`
when it is missing (`os.OpenFile` with `O_CREATE` requires the parent
directory), so the run aborts before the loop, leaving the filesystem
untouched: the parent is still absent afterwards. -/
theorem C10_counterexample :
    (copyFolder "m" (fun _ => true) 1 (.dir 0o755 [("a", .file 0o600 "A")])
      ["s"] ["d"] ⟨[], []⟩).2 = some (.ioError ["d", "m"]) ∧
    (copyFolder "m" (fun _ => true) 1 (.dir 0o755 [("a", .file 0o600 "A")])
      ["s"] ["d"] ⟨[], []⟩).1.fs = [] ∧
    lookupFs (copyFolder "m" (fun _ => true) 1 (.dir 0o755 [("a", .file 0o600 "A")])
      ["s"] ["d"] ⟨[], []⟩).1.fs ["d"] = none := by
  decide

/-- C10 (amended): when the copier copies a file child, the file's
destination parent directory necessarily already exists.  First conjunct:
with the parent (the current destination directory) missing, the run aborts
at `manifest.Create()` (`os.OpenFile` fails with `ENOENT`) without touching
the filesystem, so `os.MkdirAll(parentDir, 0700)` is never reached with a
missing parent and its fixed `0700` mode (rather than the source directory's
bits) never materialises.  Second conjunct: on a successful run the existing
parent directory's permission bits are left unchanged by the
`os.MkdirAll(parentDir, 0700)` call and the rest of the copy. -/
theorem C10_parent_dir_0700 (mf : String) (φ : String → Bool)
    (fuel tp fp : Nat) (c n : String) (sp dpp : Path) (dn : String) (st : St) :
    (lookupFs st.fs (dpp ++ [dn]) = none →
     lookupFs st.fs ((dpp ++ [dn]) ++ [mf]) = none →
      (copyFolder mf φ fuel (.dir tp [(n, .file fp c)]) sp (dpp ++ [dn]) st).2.isSome
        = true ∧
      (copyFolder mf φ fuel (.dir tp [(n, .file fp c)]) sp (dpp ++ [dn]) st).1.fs
        = st.fs) ∧
    (∀ st1 pp, wfNameB mf n = true → φ n = true →
      dirsOkB dpp st.fs = true →
      lookupFs st.fs ((dpp ++ [dn]) ++ [mf]) = none →
      lookupFs st.fs (dpp ++ [dn]) = some (.ddir pp) →
      copyFolder mf φ fuel (.dir tp [(n, .file fp c)]) sp (dpp ++ [dn]) st
        = (st1, none) →
      lookupFs st1.fs (dpp ++ [dn]) = some (.ddir pp)) := by
  constructor
  · intro hnone hmp
    cases fuel with
    | zero => exact ⟨rfl, rfl⟩
    | succ fuel =>
      have hclean : cleanManifest ((dpp ++ [dn]) ++ [mf]) st.fs = (st.fs, none) := by
        unfold cleanManifest
        rw [hmp]
      have hcreate : createManifest ((dpp ++ [dn]) ++ [mf]) st.fs =
          (st.fs, some (.ioError ((dpp ++ [dn]) ++ [mf]))) := by
        unfold createManifest
        rw [hmp, dropLast_snoc, hnone]
      simp only [copyFolder]
      rw [hclean]
      simp only []
      rw [hcreate]
      exact ⟨rfl, rfl⟩
  · intro st1 pp hwf hφ hdirs hmp hsome hrun
    cases fuel with
    | zero => simp [copyFolder] at hrun
    | succ fuel =>
      have hdirsL : DirsOkL dpp (lookupFs st.fs) := dirsOkB_sound hdirs
      simp only [copyFolder] at hrun
      have hclean : cleanManifest ((dpp ++ [dn]) ++ [mf]) st.fs = (st.fs, none) := by
        unfold cleanManifest
        rw [hmp]
      rw [hclean] at hrun
      simp only [] at hrun
      have hcreate : createManifest ((dpp ++ [dn]) ++ [mf]) st.fs =
          (setFs ((dpp ++ [dn]) ++ [mf]) (.dmanifest 0o644 [] false) st.fs, none) := by
        unfold createManifest
        rw [hmp, dropLast_snoc, hsome]
      rw [hcreate] at hrun
      simp only [] at hrun
      rw [show listChildren (FSTree.dir tp [(n, .file fp c)]) = [(n, .file fp c)] from rfl,
        processChildren_step_file mf φ _ n (.file fp c) [] sp (dpp ++ [dn]) _ hwf hφ rfl]
        at hrun
      have hlk2 : ∀ q, lookupFs (setFs ((dpp ++ [dn]) ++ [mf])
          (.dmanifest 0o644 [] false) st.fs) q =
          if q = (dpp ++ [dn]) ++ [mf] then some (.dmanifest 0o644 [] false)
          else lookupFs st.fs q := fun q => lookup_setFs _ _ _ q
      have hdirs2 : DirsOkL dpp (lookupFs (setFs ((dpp ++ [dn]) ++ [mf])
          (.dmanifest 0o644 [] false) st.fs)) := by
        intro q hq hpq
        rw [hlk2 q, if_neg ?_]
        · exact hdirsL q hq hpq
        · intro he
          have hlen := congrArg List.length he
          have hle := pfx_length hpq
          simp [List.length_append] at hlen
          omega
      cases hmk : mkdirAll ((dpp ++ [dn]) ++ [mf]).dropLast 0o700
          (setFs ((dpp ++ [dn]) ++ [mf]) (.dmanifest 0o644 [] false) st.fs) with
      | mk fs3 errm =>
        rw [show ((dpp ++ [dn]) ++ [mf]).dropLast = dpp ++ [dn] from dropLast_snoc _ _] at hmk
        rw [hmk] at hrun
        cases errm with
        | some e => simp at hrun
        | none =>
          simp only [] at hrun
          have hmkc := mkdirAll_snoc_char hdirs2 hmk
          cases hwr : writeFileFs ((dpp ++ [dn]) ++ [n]) (fileContent (resolve (.file fp c)))
              (filePerm (resolve (.file fp c))) fs3 with
          | mk fs4 errw =>
            rw [hwr] at hrun
            cases errw with
            | some e => simp at hrun
            | none =>
              simp only [processChildren] at hrun
              have hwc := writeFile_char hwr
              have hst1 : st1.fs =
                  addFileManifest ((dpp ++ [dn]) ++ [mf]) ((dpp ++ [dn]) ++ [n]) fs4 := by
                cases hrun
                rfl
              have hnmf : n ≠ mf := wfNameB_ne_mf hwf
              have hmf4 : lookupFs fs4 ((dpp ++ [dn]) ++ [mf]) =
                  some (.dmanifest 0o644 [] false) := by
                rw [hwc, if_neg (fun he => hnmf (snoc_eq_iff.mp he.symm)), hmkc,
                  if_neg (snoc_ne_self _ _), hlk2, if_pos rfl]
              have hfinal : lookupFs st1.fs (dpp ++ [dn]) =
                  some (.ddir (dirPermFrom (lookupFs st.fs (dpp ++ [dn])) 0o700)) := by
                rw [hst1, addFile_char hmf4, if_neg (Ne.symm (snoc_ne_self _ _)),
                  hwc, if_neg (Ne.symm (snoc_ne_self _ _)), hmkc, if_pos rfl,
                  hlk2, if_neg (Ne.symm (snoc_ne_self _ _))]
              rw [hfinal, hsome]
              rfl

theorem C10_parent_dir_0700_witness :
    lookupFs (copyFolder "m" (fun _ => true) 1
      (.dir 0o755 [("a", .file 0o600 "A")]) ["s"] ["d"]
      ⟨[(["d"], .ddir 0o755)], []⟩).1.fs ["d"] = some (.ddir 0o755) :=
  (C10_parent_dir_0700 "m" (fun _ => true) 1 0o755 0o600 "A" "a" ["s"] [] "d"
    ⟨[(["d"], .ddir 0o755)], []⟩).2
    (copyFolder "m" (fun _ => true) 1 (.dir 0o755 [("a", .file 0o600 "A")])
      ["s"] ["d"] ⟨[(["d"], .ddir 0o755)], []⟩).1
    0o755 (by decide) rfl (by decide) (by decide) (by decide) (by decide)

/-- C7: during a successful run, every application of the filter receives the
path of a child entry of some visited source directory computed relative to
that immediate directory (the entry's parent): the argument is exactly the
bare entry name, i.e. `GetPathRelativeTo` of the child's path with respect to
the directory being listed, never a path relative to the top-level root. -/
theorem C7_filter_relative_to_parent (mf : String) (φ : String → Bool)
    (fw fuel : Nat) (t : FSTree) (sp dp : Path) (fs0 : Fs) (st1 : St)
    (d : Path) (s : String)
    (hwf : wfTreeF mf fw t = true)
    (hgood : goodFsB fs0 = true) (hmfree : mfFreeFsB mf fs0 = true)
    (hdirs : dirsOkB dp fs0 = true) (hmf : mf ∉ dp)
    (hrun : copyFolder mf φ fuel t sp dp ⟨fs0, []⟩ = (st1, none))
    (hev : Event.filterCall d s ∈ st1.events) :
    ∃ (r : Path) (tv tc : FSTree),
      d = sp ++ r ∧ r ∈ visitedDirsF φ fuel t ∧ subtreeAtD t r = some tv ∧
      (s, tc) ∈ listChildren tv ∧
      GetPathRelativeTo (d ++ [s]) d = s := by
  have hw := wfTreeF_sound hwf
  obtain ⟨-, -, -, -, hevs⟩ := copyFolder_char mf φ fuel t sp dp ⟨fs0, []⟩ st1 hw
    (goodFsB_sound hgood) (mfFreeFsB_sound hmfree) (dirsOkB_sound hdirs) hmf hrun
  rw [hevs] at hev
  simp only [List.nil_append] at hev
  obtain ⟨r, tv, tc, h1, h2, h3, h4⟩ := filterCall_shape mf φ fuel t sp dp d s hw hev
  exact ⟨r, tv, tc, h1, h2, h3, h4, getPathRelativeTo_child d s⟩

theorem C7_filter_relative_to_parent_witness :
    ∃ (r : Path) (tv tc : FSTree),
      (["s"] : Path) = ["s"] ++ r ∧
      r ∈ visitedDirsF (fun _ => true) 1 (.dir 0o755 [("a", .file 0o600 "A")]) ∧
      subtreeAtD (.dir 0o755 [("a", .file 0o600 "A")]) r = some tv ∧
      ("a", tc) ∈ listChildren tv ∧
      GetPathRelativeTo (["s"] ++ ["a"]) ["s"] = "a" :=
  C7_filter_relative_to_parent "m" (fun _ => true) 2 1
    (.dir 0o755 [("a", .file 0o600 "A")]) ["s"] ["d"] [(["d"], .ddir 0o755)]
    (copyFolder "m" (fun _ => true) 1
      (.dir 0o755 [("a", .file 0o600 "A")]) ["s"] ["d"] ⟨[(["d"], .ddir 0o755)], []⟩).1
    ["s"] "a"
    (by decide) (by decide) (by decide) (by decide) (by decide) (by decide) (by decide)

/-- C5 is false on error paths: in this failing run (the file copy hits a
directory sitting at the file's destination path) the per-directory procedure
has created the manifest's write handle but returns on the error without
closing it — the code reaches `manifest.Close()` only after the loop and has
no `defer`. -/
theorem C5_counterexample :
    (copyFolder "m" (fun _ => true) 1 (.dir 0o755 [("a", .file 0o600 "A")])
      ["s"] ["d"] ⟨[(["d"], .ddir 0o755), (["d", "a"], .ddir 0o755)], []⟩).2.isSome
      = true ∧
    countEv (.createdEv ["d"])
      (copyFolder "m" (fun _ => true) 1 (.dir 0o755 [("a", .file 0o600 "A")])
        ["s"] ["d"] ⟨[(["d"], .ddir 0o755), (["d", "a"], .ddir 0o755)], []⟩).1.events
      = 1 ∧
    countEv (.closedEv ["d"])
      (copyFolder "m" (fun _ => true) 1 (.dir 0o755 [("a", .file 0o600 "A")])
        ["s"] ["d"] ⟨[(["d"], .ddir 0o755), (["d", "a"], .ddir 0o755)], []⟩).1.events
      = 0 := by
  decide

/-- C5 (amended): on the *success* path the balance holds — after a
successful run every destination directory has seen exactly as many manifest
`Close` events as `Create` events, so every handle the run opened was
released exactly once.  The original claim's guarantee for error paths is
refuted by `C5_counterexample`. -/
theorem C5_close_per_create_on_success (mf : String) (φ : String → Bool)
    (fw fuel : Nat) (t : FSTree) (sp dp : Path) (fs0 : Fs) (st1 : St)
    (hwf : wfTreeF mf fw t = true)
    (hgood : goodFsB fs0 = true) (hmfree : mfFreeFsB mf fs0 = true)
    (hdirs : dirsOkB dp fs0 = true) (hmf : mf ∉ dp)
    (hrun : copyFolder mf φ fuel t sp dp ⟨fs0, []⟩ = (st1, none)) :
    ∀ D, countEv (.createdEv D) st1.events = countEv (.closedEv D) st1.events := by
  have hw := wfTreeF_sound hwf
  obtain ⟨-, -, -, -, hevs⟩ := copyFolder_char mf φ fuel t sp dp ⟨fs0, []⟩ st1 hw
    (goodFsB_sound hgood) (mfFreeFsB_sound hmfree) (dirsOkB_sound hdirs) hmf hrun
  intro D
  rw [hevs]
  simp only [List.nil_append]
  exact countEv_created_closed mf φ fuel t sp dp D

theorem C5_close_per_create_on_success_witness :
    countEv (.createdEv ["d"])
      (copyFolder "m" (fun _ => true) 2
        (.dir 0o755 [("a", .file 0o600 "A"), ("sub", .dir 0o750 [])])
        ["s"] ["d"] ⟨[(["d"], .ddir 0o755)], []⟩).1.events =
    countEv (.closedEv ["d"])
      (copyFolder "m" (fun _ => true) 2
        (.dir 0o755 [("a", .file 0o600 "A"), ("sub", .dir 0o750 [])])
        ["s"] ["d"] ⟨[(["d"], .ddir 0o755)], []⟩).1.events :=
  C5_close_per_create_on_success "m" (fun _ => true) 2 2
    (.dir 0o755 [("a", .file 0o600 "A"), ("sub", .dir 0o750 [])])
    ["s"] ["d"] [(["d"], .ddir 0o755)]
    (copyFolder "m" (fun _ => true) 2
      (.dir 0o755 [("a", .file 0o600 "A"), ("sub", .dir 0o750 [])])
      ["s"] ["d"] ⟨[(["d"], .ddir 0o755)], []⟩).1
    (by decide) (by decide) (by decide) (by decide) (by decide) (by decide) ["d"]

/-- C4: after a successful run, the manifest record persisted in every
visited destination directory `dp ++ r` decodes to exactly the destination
paths of the files the run copied directly into that directory (the accepted
file children of the corresponding source directory), and records no path
from any other directory: every recorded path has `dp ++ r` as its immediate
parent, and the record equals the run's own copy trace into `dp ++ r`. -/
theorem C4_manifest_exact (mf : String) (φ : String → Bool)
    (fw fuel : Nat) (t : FSTree) (sp dp : Path) (fs0 : Fs) (st1 : St)
    (r : Path) (tv : FSTree)
    (hwf : wfTreeF mf fw t = true)
    (hgood : goodFsB fs0 = true) (hmfree : mfFreeFsB mf fs0 = true)
    (hdirs : dirsOkB dp fs0 = true) (hmf : mf ∉ dp)
    (hrun : copyFolder mf φ fuel t sp dp ⟨fs0, []⟩ = (st1, none))
    (hvis : r ∈ visitedDirsF φ fuel t)
    (hsub : subtreeAtD t r = some tv) :
    lookupFs st1.fs ((dp ++ r) ++ [mf]) =
      some (.dmanifest 0o644
        ((fileChildNames φ tv).map (fun n => (dp ++ r) ++ [n])) false) ∧
    (fileChildNames φ tv).map (fun n => (dp ++ r) ++ [n]) =
      copiedAt (dp ++ r) st1.events ∧
    (∀ x ∈ copiedAt (dp ++ r) st1.events, x.dropLast = dp ++ r) := by
  have hw := wfTreeF_sound hwf
  obtain ⟨hchar, -, -, -, hevs⟩ := copyFolder_char mf φ fuel t sp dp ⟨fs0, []⟩ st1 hw
    (goodFsB_sound hgood) (mfFreeFsB_sound hmfree) (dirsOkB_sound hdirs) hmf hrun
  obtain ⟨fuel2, tv2, oldc, -, hpos, hsub2, -, hchv, -, -⟩ :=
    InnerChar_descend mf φ r fuel t dp (lookupFs fs0) (lookupFs st1.fs) hw hchar
      (goodFsB_sound hgood) hvis
  rw [hsub] at hsub2
  cases hsub2
  have hcopied : copiedAt (dp ++ r) st1.events =
      (fileChildNames φ tv).map (fun n => (dp ++ r) ++ [n]) := by
    rw [hevs]
    simp only [List.nil_append]
    exact copiedAt_mirrorEvents mf φ r fuel t sp dp tv hw hvis hsub
  cases fuel2 with
  | zero => cases hchv
  | succ fuel2 =>
    obtain ⟨hM, -, -, -⟩ := hchv
    refine ⟨hM, hcopied.symm, ?_⟩
    intro x hx
    rw [hcopied] at hx
    obtain ⟨n, -, rfl⟩ := List.mem_map.mp hx
    exact dropLast_snoc _ _

theorem C4_manifest_exact_witness :
    lookupFs (copyFolder "m" (fun _ => true) 2
        (.dir 0o755 [("a", .file 0o600 "A"), ("b", .file 0o640 "B")])
        ["s"] ["d"] ⟨[(["d"], .ddir 0o755)], []⟩).1.fs (["d"] ++ [] ++ ["m"]) =
      some (.dmanifest 0o644
        ((fileChildNames (fun _ => true)
            (.dir 0o755 [("a", .file 0o600 "A"), ("b", .file 0o640 "B")])).map
          (fun n => ["d"] ++ [] ++ [n])) false) :=
  (C4_manifest_exact "m" (fun _ => true) 2 2
    (.dir 0o755 [("a", .file 0o600 "A"), ("b", .file 0o640 "B")])
    ["s"] ["d"] [(["d"], .ddir 0o755)]
    (copyFolder "m" (fun _ => true) 2
      (.dir 0o755 [("a", .file 0o600 "A"), ("b", .file 0o640 "B")])
      ["s"] ["d"] ⟨[(["d"], .ddir 0o755)], []⟩).1
    [] (.dir 0o755 [("a", .file 0o600 "A"), ("b", .file 0o640 "B")])
    (by decide) (by decide) (by decide) (by decide) (by decide) (by decide)
    (by decide) rfl).1

/-- C1: if a first run wrote file `n` into the visited destination directory
`dp ++ r` and a second run against the same destination revisits `r` while
`n`'s source counterpart is gone (no child of that name any more, or any
remaining child of that name rejected by the second filter), then `n` is
absent from `dp ++ r` after the second run: the second run's `Clean()` at
that level removed the recorded file. -/
theorem C1_stale_file_removed (mf : String) (φ1 φ2 : String → Bool)
    (fw1 fw2 fuel1 fuel2 : Nat) (t1 t2 : FSTree) (sp1 sp2 dp : Path)
    (fs0 : Fs) (st1 st2 : St) (r : Path) (n : String) (tv1 tv2 : FSTree)
    (hwf1 : wfTreeF mf fw1 t1 = true) (hwf2 : wfTreeF mf fw2 t2 = true)
    (hgood : goodFsB fs0 = true) (hmfree : mfFreeFsB mf fs0 = true)
    (hdirs : dirsOkB dp fs0 = true) (hmf : mf ∉ dp)
    (hrun1 : copyFolder mf φ1 fuel1 t1 sp1 dp ⟨fs0, []⟩ = (st1, none))
    (hrun2 : copyFolder mf φ2 fuel2 t2 sp2 dp ⟨st1.fs, []⟩ = (st2, none))
    (hvis1 : r ∈ visitedDirsF φ1 fuel1 t1)
    (hsub1 : subtreeAtD t1 r = some tv1)
    (hn : n ∈ fileChildNames φ1 tv1)
    (hvis2 : r ∈ visitedDirsF φ2 fuel2 t2)
    (hsub2 : subtreeAtD t2 r = some tv2)
    (hgone : ∀ tc, (n, tc) ∈ listChildren tv2 → φ2 n = false) :
    lookupFs st2.fs ((dp ++ r) ++ [n]) = none := by
  have hw1 := wfTreeF_sound hwf1
  have hw2 := wfTreeF_sound hwf2
  obtain ⟨hchar1, hframe1, hG1, hM1, -⟩ :=
    copyFolder_char mf φ1 fuel1 t1 sp1 dp ⟨fs0, []⟩ st1 hw1
      (goodFsB_sound hgood) (mfFreeFsB_sound hmfree) (dirsOkB_sound hdirs) hmf hrun1
  have hdirs1 : DirsOkL dp (lookupFs st1.fs) := by
    intro q hq hpq
    rw [hframe1 q (fun hdq => pfx_antisymm hpq hdq)]
    exact dirsOkB_sound hdirs q hq hpq
  obtain ⟨hchar2, -, -, -, -⟩ :=
    copyFolder_char mf φ2 fuel2 t2 sp2 dp ⟨st1.fs, []⟩ st2 hw2
      hG1 hM1 hdirs1 hmf hrun2
  obtain ⟨f1, tv1x, oldc1, -, -, hsub1x, hwtv1, hchv1, -, -⟩ :=
    InnerChar_descend mf φ1 r fuel1 t1 dp (lookupFs fs0) (lookupFs st1.fs) hw1
      hchar1 (goodFsB_sound hgood) hvis1
  rw [hsub1] at hsub1x
  cases hsub1x
  cases f1 with
  | zero => cases hchv1
  | succ f1 =>
    obtain ⟨hM1v, -, -, -⟩ := hchv1
    obtain ⟨tc1, hmem1, -, -⟩ := mem_acceptedFileNames.mp hn
    have hnmf : n ≠ mf := wfNameB_ne_mf (hwtv1.children_wfName (n, tc1) hmem1)
    obtain ⟨f2, tv2x, oldc2, -, -, hsub2x, hwtv2, hchv2, -, hko2⟩ :=
      InnerChar_descend mf φ2 r fuel2 t2 dp (lookupFs st1.fs) (lookupFs st2.fs) hw2
        hchar2 hG1 hvis2
    rw [hsub2] at hsub2x
    cases hsub2x
    cases f2 with
    | zero => cases hchv2
    | succ f2 =>
      obtain ⟨-, hU2, -, -⟩ := hchv2
      have hnd : n ∉ dirChildNames φ2 tv2 := by
        intro hmem
        obtain ⟨tc, hmemc, hφc, -⟩ := mem_acceptedDirNames.mp hmem
        rw [hgone tc hmemc] at hφc
        cases hφc
      have hnf : n ∉ fileChildNames φ2 tv2 := by
        intro hmem
        obtain ⟨tc, hmemc, hφc, -⟩ := mem_acceptedFileNames.mp hmem
        rw [hgone tc hmemc] at hφc
        cases hφc
      have hval := hU2 n [] hnd (fun _ => ⟨hnmf, hnf⟩)
      rw [hval, afterCC_cons [] hnmf]
      rcases hko2 with hk | hk
      · rw [recListO_of_none (hk _ (pfx_append _ _) (snoc_ne_self _ _)),
          List.any_nil, if_neg (by decide)]
        exact hk _ (pfx_append _ _) (snoc_ne_self _ _)
      · have h1 : oldc2 ((dp ++ r) ++ [mf]) =
            some (.dmanifest 0o644
              ((fileChildNames φ1 tv1).map (fun m => (dp ++ r) ++ [m])) false) := by
          rw [hk _ (pfx_append _ _) (snoc_ne_self _ _)]
          exact hM1v
        have h2 : recListO oldc2 ((dp ++ r) ++ [mf]) =
            (fileChildNames φ1 tv1).map (fun m => (dp ++ r) ++ [m]) := by
          unfold recListO
          rw [h1]
        rw [h2, if_pos ((any_pfx_mapped (dp ++ r) (fileChildNames φ1 tv1) n []).mpr hn)]

theorem C1_stale_file_removed_witness :
    lookupFs (copyFolder "m" (fun s => !(s == "a")) 1
        (.dir 0o755 [("a", .file 0o600 "A")]) ["s"] ["d"]
        ⟨(copyFolder "m" (fun _ => true) 1
            (.dir 0o755 [("a", .file 0o600 "A")]) ["s"] ["d"]
            ⟨[(["d"], .ddir 0o755)], []⟩).1.fs, []⟩).1.fs
      ((["d"] ++ []) ++ ["a"]) = none :=
  C1_stale_file_removed "m" (fun _ => true) (fun s => !(s == "a")) 2 2 1 1
    (.dir 0o755 [("a", .file 0o600 "A")]) (.dir 0o755 [("a", .file 0o600 "A")])
    ["s"] ["s"] ["d"] [(["d"], .ddir 0o755)]
    (copyFolder "m" (fun _ => true) 1 (.dir 0o755 [("a", .file 0o600 "A")])
      ["s"] ["d"] ⟨[(["d"], .ddir 0o755)], []⟩).1
    (copyFolder "m" (fun s => !(s == "a")) 1 (.dir 0o755 [("a", .file 0o600 "A")])
      ["s"] ["d"]
      ⟨(copyFolder "m" (fun _ => true) 1 (.dir 0o755 [("a", .file 0o600 "A")])
          ["s"] ["d"] ⟨[(["d"], .ddir 0o755)], []⟩).1.fs, []⟩).1
    [] "a" (.dir 0o755 [("a", .file 0o600 "A")]) (.dir 0o755 [("a", .file 0o600 "A")])
    (by decide) (by decide) (by decide) (by decide) (by decide) (by decide)
    (by decide) (by decide) (by decide) rfl (by decide) (by decide) rfl
    (fun _ _ => by decide)

/-- Source tree for the C3 counterexample: one subdirectory holding one
file. -/
def c3t : FSTree := .dir 0o755 [("sub", .dir 0o750 [("b", .file 0o600 "B")])]

/-- Second-run filter for the C3 counterexample: rejects `sub`. -/
def c3φ : String → Bool := fun s => !(s == "sub")

/-- Destination filesystem after the first (all-accepting) C3 run. -/
def c3fs1 : Fs :=
  (copyFolder "m" (fun _ => true) 2 c3t ["s"] ["d"] ⟨[(["d"], .ddir 0o755)], []⟩).1.fs

/-- The second C3 run, with the filter now rejecting `sub`. -/
def c3run2 : St × Option Err := copyFolder "m" c3φ 2 c3t ["s"] ["d"] ⟨c3fs1, []⟩

/-- C3 is false as stated: after a previous run copied directory `sub` (and
the file `sub/b` inside it), a successful second run whose filter rejects
`sub` leaves both `sub` and its contents under the destination — `Clean()`
removes recorded *files* only, and the rejected directory is simply skipped,
never deleted. -/
theorem C3_counterexample :
    c3φ "sub" = false ∧
    c3run2.2 = none ∧
    lookupFs c3run2.1.fs ["d", "sub"] = some (.ddir 0o750) ∧
    lookupFs c3run2.1.fs ["d", "sub", "b"] = some (.dfile 0o600 "B") := by
  decide

/-- C3 (amended): a rejected entry is never *written*: after a successful
run, at every visited destination directory the child of a filter-rejected
name is either absent or exactly the node that was already there when the
run started — the run itself never creates or modifies it.  (The original
"appears nowhere even if present from a previous run" is refuted by
`C3_counterexample`.) -/
theorem C3_rejected_never_written (mf : String) (φ : String → Bool)
    (fw fuel : Nat) (t : FSTree) (sp dp : Path) (fs0 : Fs) (st1 : St)
    (r : Path) (n : String)
    (hwf : wfTreeF mf fw t = true)
    (hgood : goodFsB fs0 = true) (hmfree : mfFreeFsB mf fs0 = true)
    (hdirs : dirsOkB dp fs0 = true) (hmf : mf ∉ dp)
    (hrun : copyFolder mf φ fuel t sp dp ⟨fs0, []⟩ = (st1, none))
    (hvis : r ∈ visitedDirsF φ fuel t)
    (hrej : φ n = false) (hnmf : n ≠ mf) :
    lookupFs st1.fs ((dp ++ r) ++ [n]) = none ∨
    lookupFs st1.fs ((dp ++ r) ++ [n]) = lookupFs fs0 ((dp ++ r) ++ [n]) := by
  have hw := wfTreeF_sound hwf
  obtain ⟨hchar, -, -, -, -⟩ :=
    copyFolder_char mf φ fuel t sp dp ⟨fs0, []⟩ st1 hw
      (goodFsB_sound hgood) (mfFreeFsB_sound hmfree) (dirsOkB_sound hdirs) hmf hrun
  obtain ⟨f2, tv, oldc, -, -, -, hwtv, hchv, -, hko⟩ :=
    InnerChar_descend mf φ r fuel t dp (lookupFs fs0) (lookupFs st1.fs) hw hchar
      (goodFsB_sound hgood) hvis
  cases f2 with
  | zero => cases hchv
  | succ f2 =>
    obtain ⟨-, hU, -, -⟩ := hchv
    have hnd : n ∉ dirChildNames φ tv := by
      intro hmem
      obtain ⟨tc, -, hφc, -⟩ := mem_acceptedDirNames.mp hmem
      rw [hrej] at hφc
      cases hφc
    have hnf : n ∉ fileChildNames φ tv := by
      intro hmem
      obtain ⟨tc, -, hφc, -⟩ := mem_acceptedFileNames.mp hmem
      rw [hrej] at hφc
      cases hφc
    have hval := hU n [] hnd (fun _ => ⟨hnmf, hnf⟩)
    rw [hval, afterCC_cons [] hnmf]
    by_cases hc : (recListO oldc ((dp ++ r) ++ [mf])).any
        (fun p => pfx p ((dp ++ r) ++ [n])) = true
    · left
      rw [if_pos hc]
    · rw [if_neg hc]
      rcases hko with hk | hk
      · left
        exact hk _ (pfx_append _ _) (snoc_ne_self _ _)
      · right
        exact hk _ (pfx_append _ _) (snoc_ne_self _ _)

theorem C3_rejected_never_written_witness :
    lookupFs (copyFolder "m" (fun s => !(s == "b")) 1
        (.dir 0o755 [("a", .file 0o600 "A")]) ["s"] ["d"]
        ⟨[(["d"], .ddir 0o755)], []⟩).1.fs ((["d"] ++ []) ++ ["b"]) = none ∨
    lookupFs (copyFolder "m" (fun s => !(s == "b")) 1
        (.dir 0o755 [("a", .file 0o600 "A")]) ["s"] ["d"]
        ⟨[(["d"], .ddir 0o755)], []⟩).1.fs ((["d"] ++ []) ++ ["b"]) =
      lookupFs [(["d"], .ddir 0o755)] ((["d"] ++ []) ++ ["b"]) :=
  C3_rejected_never_written "m" (fun s => !(s == "b")) 2 1
    (.dir 0o755 [("a", .file 0o600 "A")]) ["s"] ["d"] [(["d"], .ddir 0o755)]
    (copyFolder "m" (fun s => !(s == "b")) 1 (.dir 0o755 [("a", .file 0o600 "A")])
      ["s"] ["d"] ⟨[(["d"], .ddir 0o755)], []⟩).1
    [] "b"
    (by decide) (by decide) (by decide) (by decide) (by decide) (by decide)
    (by decide) (by decide) (by decide)

/-- Source tree for the C2 counterexample. -/
def c2t : FSTree := .dir 0o755 [("a", .file 0o644 "A")]

/-- Initial destination for the C2 counterexample: a stale, *unrecorded* file
already sits at the destination path of `a`, with different permission
bits. -/
def c2fs0 : Fs := [(["d"], .ddir 0o755), (["d", "a"], .dfile 0o600 "Aold")]

/-- Destination filesystem after running once from `c2fs0`. -/
def c2fs1 : Fs := (copyFolder "m" (fun _ => true) 1 c2t ["s"] ["d"] ⟨c2fs0, []⟩).1.fs

/-- Destination filesystem after running a second time. -/
def c2fs2 : Fs := (copyFolder "m" (fun _ => true) 1 c2t ["s"] ["d"] ⟨c2fs1, []⟩).1.fs

/-- C2 is false as stated: both runs succeed, but the tree after one run
differs from the tree after two runs in the permission bits of `d/a` — the
first run overwrites the pre-existing unrecorded file in place
(`ioutil.WriteFile` keeps an existing file's bits), while the second run's
`Clean()` removes it (the first run recorded it) and recreates it with the
source's bits. -/
theorem C2_counterexample :
    (copyFolder "m" (fun _ => true) 1 c2t ["s"] ["d"] ⟨c2fs0, []⟩).2 = none ∧
    (copyFolder "m" (fun _ => true) 1 c2t ["s"] ["d"] ⟨c2fs1, []⟩).2 = none ∧
    lookupFs c2fs1 ["d", "a"] = some (.dfile 0o600 "A") ∧
    lookupFs c2fs2 ["d", "a"] = some (.dfile 0o644 "A") := by
  decide

/-- C2 (amended): idempotence holds when the destination region below the
destination directory starts out empty (the intended deployment: mirroring
into a fresh scratch directory): two successful consecutive runs with the
same source tree, manifest name and filter leave the destination filesystem
pointwise identical to the state after the first run.  For a dirty initial
region the claim fails (`C2_counterexample`). -/
theorem C2_idempotent_from_empty (mf : String) (φ : String → Bool)
    (fw fuel1 fuel2 : Nat) (t : FSTree) (sp1 sp2 dp : Path) (fs0 : Fs)
    (st1 st2 : St)
    (hwf : wfTreeF mf fw t = true)
    (hgood : goodFsB fs0 = true) (hmfree : mfFreeFsB mf fs0 = true)
    (hdirs : dirsOkB dp fs0 = true) (hmf : mf ∉ dp)
    (hempty : emptyBelowB dp fs0 = true)
    (hrun1 : copyFolder mf φ fuel1 t sp1 dp ⟨fs0, []⟩ = (st1, none))
    (hrun2 : copyFolder mf φ fuel2 t sp2 dp ⟨st1.fs, []⟩ = (st2, none)) :
    ∀ q, lookupFs st2.fs q = lookupFs st1.fs q := by
  have hw := wfTreeF_sound hwf
  obtain ⟨hchar1, hframe1, hG1, hM1, -⟩ :=
    copyFolder_char mf φ fuel1 t sp1 dp ⟨fs0, []⟩ st1 hw
      (goodFsB_sound hgood) (mfFreeFsB_sound hmfree) (dirsOkB_sound hdirs) hmf hrun1
  have hdirs1 : DirsOkL dp (lookupFs st1.fs) := by
    intro q hq hpq
    rw [hframe1 q (fun hdq => pfx_antisymm hpq hdq)]
    exact dirsOkB_sound hdirs q hq hpq
  obtain ⟨hchar2, hframe2, -, hM2, -⟩ :=
    copyFolder_char mf φ fuel2 t sp2 dp ⟨st1.fs, []⟩ st2 hw
      hG1 hM1 hdirs1 hmf hrun2
  intro q
  by_cases hq : pfx dp q = true ∧ q ≠ dp
  · exact idem_aux mf φ fuel1 fuel2 t dp (lookupFs fs0) (lookupFs st1.fs)
      (lookupFs st1.fs) (lookupFs st2.fs) hw hchar1 hchar2 hM1 hM2
      (emptyBelowB_sound hempty) (fun q2 _ _ => rfl) q hq.1 hq.2
  · refine hframe2 q (fun hp => ?_)
    by_contra hne
    exact hq ⟨hp, hne⟩

theorem C2_idempotent_from_empty_witness :
    lookupFs (copyFolder "m" (fun _ => true) 2
        (.dir 0o755 [("a", .file 0o600 "A")]) ["s"] ["d"]
        ⟨(copyFolder "m" (fun _ => true) 2 (.dir 0o755 [("a", .file 0o600 "A")])
            ["s"] ["d"] ⟨[(["d"], .ddir 0o755)], []⟩).1.fs, []⟩).1.fs ["d", "a"] =
    lookupFs (copyFolder "m" (fun _ => true) 2
        (.dir 0o755 [("a", .file 0o600 "A")]) ["s"] ["d"]
        ⟨[(["d"], .ddir 0o755)], []⟩).1.fs ["d", "a"] :=
  C2_idempotent_from_empty "m" (fun _ => true) 2 2 2
    (.dir 0o755 [("a", .file 0o600 "A")]) ["s"] ["s"] ["d"] [(["d"], .ddir 0o755)]
    (copyFolder "m" (fun _ => true) 2 (.dir 0o755 [("a", .file 0o600 "A")])
      ["s"] ["d"] ⟨[(["d"], .ddir 0o755)], []⟩).1
    (copyFolder "m" (fun _ => true) 2 (.dir 0o755 [("a", .file 0o600 "A")])
      ["s"] ["d"]
      ⟨(copyFolder "m" (fun _ => true) 2 (.dir 0o755 [("a", .file 0o600 "A")])
          ["s"] ["d"] ⟨[(["d"], .ddir 0o755)], []⟩).1.fs, []⟩).1
    (by decide) (by decide) (by decide) (by decide) (by decide) (by decide)
    (by decide) (by decide) ["d", "a"]

/-- Source tree for the C8 counterexample: a symbolic link (own mode `0o777`)
to a directory with mode `0o750`, and a plain file with mode `0o644` whose
destination path is already occupied by an old file with mode `0o600`. -/
def c8t : FSTree :=
  .dir 0o755 [("f", .file 0o644 "F"),
              ("ld", .symlink 0o777 (.dir 0o750 [("c", .file 0o600 "C")]))]

/-- Initial destination for the C8 counterexample. -/
def c8fs0 : Fs := [(["d"], .ddir 0o755), (["d", "f"], .dfile 0o600 "old")]

/-- The C8 counterexample run. -/
def c8run : St × Option Err := copyFolder "m" (fun _ => true) 2 c8t ["s"] ["d"] ⟨c8fs0, []⟩

/-- C8 is false as stated, in both halves.  The run succeeds, and: the
source child `ld` is a symlink classified as a directory by following it
(`IsDir` uses `os.Stat`), but the destination directory receives the *link's*
own mode bits `0o777` (the code calls `os.Lstat`, which does not follow), not
the target directory's bits `0o750`; and the copied file `f` lands on a
surviving unrecorded destination file and keeps that file's old bits `0o600`
instead of the source's `0o644` (`ioutil.WriteFile` applies the mode only to
newly created files). -/
theorem C8_counterexample :
    c8run.2 = none ∧
    isDirT (.symlink 0o777 (.dir 0o750 [("c", .file 0o600 "C")])) = true ∧
    lookupFs c8run.1.fs ["d", "ld"] = some (.ddir 0o777) ∧
    (0o777 : Nat) ≠ 0o750 ∧
    lookupFs c8run.1.fs ["d", "f"] = some (.dfile 0o600 "F") ∧
    (0o600 : Nat) ≠ 0o644 := by
  decide

/-- C8 (amended): permission bits are preserved exactly for *freshly created*
targets: if the destination region starts out empty below the destination
directory, then after a successful run every accepted file child of a visited
source directory is written with the source file's bits (following symlinks,
`os.Stat`), and every accepted directory child's destination directory gets
the bits `os.Lstat` reports for the source child — for a plain subdirectory
these are the subdirectory's own bits, but for a symlink classified as a
directory they are the link's bits, not the target's, and a surviving
destination file keeps its old bits (`C8_counterexample`). -/
theorem C8_perm_preserved_fresh (mf : String) (φ : String → Bool)
    (fw fuel : Nat) (t : FSTree) (sp dp : Path) (fs0 : Fs) (st1 : St)
    (r : Path) (tv : FSTree)
    (hwf : wfTreeF mf fw t = true)
    (hgood : goodFsB fs0 = true) (hmfree : mfFreeFsB mf fs0 = true)
    (hdirs : dirsOkB dp fs0 = true) (hmf : mf ∉ dp)
    (hempty : emptyBelowB dp fs0 = true)
    (hrun : copyFolder mf φ fuel t sp dp ⟨fs0, []⟩ = (st1, none))
    (hvis : r ∈ visitedDirsF φ fuel t)
    (hsub : subtreeAtD t r = some tv) :
    (∀ n tc, (n, tc) ∈ listChildren tv → φ n = true → isDirT tc = false →
      lookupFs st1.fs ((dp ++ r) ++ [n]) =
        some (.dfile (filePerm (resolve tc)) (fileContent (resolve tc)))) ∧
    (∀ n tc, (n, tc) ∈ listChildren tv → φ n = true → isDirT tc = true →
      lookupFs st1.fs ((dp ++ r) ++ [n]) = some (.ddir (lstatMode tc))) := by
  have hw := wfTreeF_sound hwf
  obtain ⟨hchar, -, -, -, -⟩ :=
    copyFolder_char mf φ fuel t sp dp ⟨fs0, []⟩ st1 hw
      (goodFsB_sound hgood) (mfFreeFsB_sound hmfree) (dirsOkB_sound hdirs) hmf hrun
  obtain ⟨f2, tvx, oldc, -, -, hsubx, hwtv, hchv, -, hko⟩ :=
    InnerChar_descend mf φ r fuel t dp (lookupFs fs0) (lookupFs st1.fs) hw hchar
      (goodFsB_sound hgood) hvis
  rw [hsub] at hsubx
  cases hsubx
  have hreg : ∀ q, pfx (dp ++ r) q = true → q ≠ dp ++ r → oldc q = none := by
    rcases hko with hk | hk
    · exact hk
    · intro q hq hqe
      rw [hk q hq hqe]
      obtain ⟨m, rest, hqeq⟩ := (strictUnder_iff (dp ++ r) q).mp ⟨hq, hqe⟩
      subst hqeq
      apply emptyBelowB_sound hempty
      · rw [List.append_assoc]
        exact pfx_append _ _
      · intro hq2
        have hlen := congrArg List.length hq2
        simp only [List.length_append, List.length_cons] at hlen
        omega
  cases f2 with
  | zero => cases hchv
  | succ f2 =>
    obtain ⟨-, -, hF, hD⟩ := hchv
    have hafter : ∀ n : String, n ≠ mf →
        afterCC mf oldc (dp ++ r) ((dp ++ r) ++ [n]) = none := by
      intro n hnmf
      rw [afterCC_cons [] hnmf,
        recListO_of_none (hreg _ (pfx_append _ _) (snoc_ne_self _ _)),
        List.any_nil, if_neg (by decide)]
      exact hreg _ (pfx_append _ _) (snoc_ne_self _ _)
    constructor
    · intro n tc hmemc hφc hdir
      have hnmf := wfNameB_ne_mf (hwtv.children_wfName (n, tc) hmemc)
      rw [hF n tc hmemc hφc hdir, hafter n hnmf]
      rfl
    · intro n tc hmemc hφc hdir
      have hnmf := wfNameB_ne_mf (hwtv.children_wfName (n, tc) hmemc)
      obtain ⟨hnode, -⟩ := hD n tc hmemc hφc hdir
      rw [hnode, hafter n hnmf]
      rfl

theorem C8_perm_preserved_fresh_witness :
    lookupFs (copyFolder "m" (fun _ => true) 2
        (.dir 0o755 [("sub", .dir 0o750 [])]) ["s"] ["d"]
        ⟨[(["d"], .ddir 0o755)], []⟩).1.fs ((["d"] ++ []) ++ ["sub"]) =
      some (.ddir (lstatMode (.dir 0o750 []))) :=
  (C8_perm_preserved_fresh "m" (fun _ => true) 3 2
    (.dir 0o755 [("sub", .dir 0o750 [])]) ["s"] ["d"] [(["d"], .ddir 0o755)]
    (copyFolder "m" (fun _ => true) 2 (.dir 0o755 [("sub", .dir 0o750 [])])
      ["s"] ["d"] ⟨[(["d"], .ddir 0o755)], []⟩).1
    [] (.dir 0o755 [("sub", .dir 0o750 [])])
    (by decide) (by decide) (by decide) (by decide) (by decide) (by decide)
    (by decide) (by decide) rfl).2
    "sub" (.dir 0o750 []) (List.mem_cons_self _ _) rfl rfl

end Mirror
